import Mathlib

/-!
Verification development for the polyarb arbitrage scanner.

The JavaScript source is shallowly embedded as follows.

* JS numbers are modelled as `Option ℚ`: `some q` is an (exact) finite
  number and `none` is NaN.  IEEE-754 rounding, overflow and the
  infinities are outside the model; every numeric literal and every
  decimal price string appearing in the development is an exact
  rational, and all arithmetic performed by the scanner (sums of
  prices, `1 - cost`, one division by a nonzero market count) is
  exact.  NaN propagation through `+`, `-`, `/` and the fact that
  every comparison with NaN is false are modelled faithfully.
* Other JS values reachable in the relevant fields (strings, numbers,
  booleans, arrays, `null`, `undefined`) are the inductive `JSVal`;
  truthiness, `||`, optional-chained indexing `a?.[i]`, `.length`
  and `parseFloat` are given their JavaScript semantics on it.
* `parseFloat` of a string parses an optional sign and a decimal
  mantissa with optional exponent from the front of the string
  (`NaN`, i.e. `none`, when no digit is consumed).  The `Infinity`
  literal is not modelled.
-/

/-- A scalar JS value: the values that can occur as an element of one
of the scanner's price/outcome arrays (nested arrays and objects are
outside the model). -/
inductive JSPrim where
  | num (q : ℚ)
  | str (s : String)
  | bool (b : Bool)
  | undef
  | jsNull
deriving DecidableEq, Repr

/-- A JS value as stored in a market field: a scalar or an array of
scalars. -/
inductive JSVal where
  | num (q : ℚ)
  | str (s : String)
  | bool (b : Bool)
  | arr (l : List JSPrim)
  | undef
  | jsNull
deriving DecidableEq, Repr

namespace JSPrim

/-- The scalar as a `JSVal`. -/
def toVal : JSPrim → JSVal
  | num q => .num q
  | str s => .str s
  | bool b => .bool b
  | undef => .undef
  | jsNull => .jsNull

end JSPrim

namespace JSVal

/-- JavaScript truthiness of a value (no NaN case: `num` is always a
finite rational in this model). -/
def truthy : JSVal → Bool
  | num q => q ≠ 0
  | str s => s ≠ ""
  | bool b => b
  | arr _ => true
  | undef => false
  | jsNull => false

/-- `a || b`. -/
def jsOr (a b : JSVal) : JSVal := if a.truthy then a else b

/-- `v?.[i]`: optional-chained element access.  On arrays it is the
element (or `undefined` out of range), on strings the one-character
string at that position, on other primitives property access yields
`undefined`, and on `null`/`undefined` the chain short-circuits to
`undefined`. -/
def optIdx (v : JSVal) (i : ℕ) : JSVal :=
  match v with
  | arr l => (l.getD i .undef).toVal
  | str s => if h : i < s.data.length then str (String.mk [s.data.get ⟨i, h⟩]) else undef
  | _ => undef

/-- `(v).length` as a JS number: defined for arrays and strings,
`undefined` (here `none`) for everything else. -/
def lenQ : JSVal → Option ℚ
  | arr l => some l.length
  | str s => some s.data.length
  | _ => none

end JSVal

/-- JS whitespace characters relevant to `parseFloat`, `\s`, `trim`
(the ASCII ones; the exotic Unicode space characters are outside the
model). -/
def isSpaceChar (c : Char) : Bool :=
  c = ' ' || c = '\t' || c = '\n' || c = '\r' || c = '\x0b' || c = '\x0c'

/-- `\w` word characters of JS regexes: `[A-Za-z0-9_]`. -/
def isWordChar (c : Char) : Bool :=
  (('a' ≤ c && c ≤ 'z') || ('A' ≤ c && c ≤ 'Z') || c.isDigit || c = '_')

def digitVal (c : Char) : ℕ := c.toNat - '0'.toNat

def digitsToNat (l : List Char) : ℕ := l.foldl (fun a c => 10 * a + digitVal c) 0

/-- Decimal mantissa-and-exponent parse used by `parseFloatStr`:
given the characters after the optional sign, parse
`digits [. digits] [e|E [sign] digits]` where at least one mantissa
digit must be present; the exponent part is only consumed when it has
at least one digit (as in JS, a dangling `e` is left unread). -/
def parseMantissa (l : List Char) : Option ℚ :=
  let ip := l.takeWhile Char.isDigit
  let r1 := l.dropWhile Char.isDigit
  let fp : List Char :=
    match r1 with
    | '.' :: r2 => r2.takeWhile Char.isDigit
    | _ => []
  let r3 : List Char :=
    match r1 with
    | '.' :: r2 => r2.dropWhile Char.isDigit
    | _ => r1
  if ip.isEmpty ∧ fp.isEmpty then none
  else
    let base : ℚ := (digitsToNat ip : ℚ) + (digitsToNat fp : ℚ) / ((10 : ℚ) ^ fp.length)
    let expo : ℤ :=
      match r3 with
      | 'e' :: r4 | 'E' :: r4 =>
        match r4 with
        | '+' :: r5 => if (r5.takeWhile Char.isDigit).isEmpty then 0 else (digitsToNat (r5.takeWhile Char.isDigit) : ℤ)
        | '-' :: r5 => if (r5.takeWhile Char.isDigit).isEmpty then 0 else -(digitsToNat (r5.takeWhile Char.isDigit) : ℤ)
        | _ => if (r4.takeWhile Char.isDigit).isEmpty then 0 else (digitsToNat (r4.takeWhile Char.isDigit) : ℤ)
      | _ => 0
    some (base * (10 : ℚ) ^ expo)

/-- `parseFloat` on a string: skip leading whitespace, optional sign,
then the longest decimal-number prefix; `none` (NaN) when no digit is
consumed. -/
def parseFloatStr (s : String) : Option ℚ :=
  let l := s.data.dropWhile isSpaceChar
  match l with
  | '-' :: r => (parseMantissa r).map (fun q => -q)
  | '+' :: r => parseMantissa r
  | r => parseMantissa r

/-- `parseFloat` on a scalar JS value.  A number parses to itself; a
string through `parseFloatStr`; booleans, `null` and `undefined`
stringify to non-numeric text, hence NaN. -/
def parseFloatPrim : JSPrim → Option ℚ
  | .num q => some q
  | .str s => parseFloatStr s
  | .bool _ => none
  | .undef => none
  | .jsNull => none

/-- `parseFloat` on a JS value.  An array stringifies to its elements
joined by commas, so parsing stops at the first comma: the result is
the parse of the first element (NaN for the empty array). -/
def parseFloatJS : JSVal → Option ℚ
  | .num q => some q
  | .str s => parseFloatStr s
  | .bool _ => none
  | .undef => none
  | .jsNull => none
  | .arr [] => none
  | .arr (x :: _) => parseFloatPrim x

/-- NaN-propagating addition. -/
def jsAdd : Option ℚ → Option ℚ → Option ℚ
  | some a, some b => some (a + b)
  | _, _ => none

/-- NaN-propagating subtraction. -/
def jsSub : Option ℚ → Option ℚ → Option ℚ
  | some a, some b => some (a - b)
  | _, _ => none

/-- NaN-propagating division.  A zero divisor yields a JS infinity,
which is outside the model; every division performed by the scanner
divides by a market count that is at least 2, so the case is mapped to
`none` and never reached. -/
def jsDiv : Option ℚ → Option ℚ → Option ℚ
  | some a, some b => if b = 0 then none else some (a / b)
  | _, _ => none

/-- `a <= b`: false whenever either side is NaN. -/
def jsLeB : Option ℚ → Option ℚ → Bool
  | some a, some b => a ≤ b
  | _, _ => false

/-- `a < b`: false whenever either side is NaN. -/
def jsLtB : Option ℚ → Option ℚ → Bool
  | some a, some b => a < b
  | _, _ => false

/-- `a >= b`: false whenever either side is NaN. -/
def jsGeB (a b : Option ℚ) : Bool := jsLeB b a

/-- `a > b`: false whenever either side is NaN. -/
def jsGtB (a b : Option ℚ) : Bool := jsLtB b a

/-- A market record, with exactly the fields the scanner reads.
`question`, `title` and `id` are display text (string or absent);
the remaining fields may carry arbitrary JS values as delivered by
the API. -/
structure Market where
  question : Option String := none
  title : Option String := none
  id : Option String := none
  outcomes : JSVal := .undef
  outcomePrices : JSVal := .undef
  yes_price : JSVal := .undef
  no_price : JSVal := .undef
  volume : JSVal := .undef
  volumeNum : JSVal := .undef
deriving DecidableEq, Repr

/-- `a || b` for the string-or-absent display fields (absent and the
empty string are falsy). -/
def orElseStr (a : Option String) (b : String) : String :=
  match a with
  | some s => if s = "" then b else s
  | none => b

/-- `market.question || market.title || 'Unknown Market'`. -/
def marketName (m : Market) : String :=
  orElseStr m.question (orElseStr m.title "Unknown Market")

/-- `parseFloat(market.volume || market.volumeNum || 0)`. -/
def marketVolume (m : Market) : Option ℚ :=
  parseFloatJS (JSVal.jsOr m.volume (JSVal.jsOr m.volumeNum (.num 0)))

/-- An opportunity as built by the detectors.  The `strategy` display
string (a formatted restatement of the same numbers) is not modelled;
no claim concerns it. -/
structure Opportunity where
  type : String
  name : String
  edge : Option ℚ
  cost : Option ℚ
  payout : Option ℚ
  prices : List (Option ℚ)
  marketCount : ℕ
  totalVolume : Option ℚ
  markets : List Market
deriving DecidableEq, Repr

/-- A group of markets believed to reference one event. -/
structure EventGroup where
  event : String
  markets : List Market
deriving DecidableEq, Repr

/-- `parseFloat(market.outcomePrices?.[0] || market.yes_price || 0.5)`. -/
def basicYes (m : Market) : Option ℚ :=
  parseFloatJS (JSVal.jsOr (m.outcomePrices.optIdx 0) (JSVal.jsOr m.yes_price (.num (1/2))))

/-- `parseFloat(market.outcomePrices?.[1] || market.no_price || 0.5)`. -/
def basicNo (m : Market) : Option ℚ :=
  parseFloatJS (JSVal.jsOr (m.outcomePrices.optIdx 1) (JSVal.jsOr m.no_price (.num (1/2))))

/-- `detectBasicArb` from the scanner. -/
def detectBasicArb (m : Market) : Option Opportunity :=
  let yesPrice := basicYes m
  let noPrice := basicNo m
  let totalCost := jsAdd yesPrice noPrice
  let edge := jsSub (some 1) totalCost
  if jsLeB edge (some 0) then none
  else some
    { type := "BASIC_ARB"
      name := marketName m
      edge := edge
      cost := totalCost
      payout := some 1
      prices := [yesPrice, noPrice]
      marketCount := 1
      totalVolume := marketVolume m
      markets := [m] }

/-- The per-market "lose" price of the correlated rule:
`parseFloat(m.outcomePrices?.[1] || m.no_price || 0.5)`. -/
def losePrice (m : Market) : Option ℚ := basicNo m

/-- `detectCorrelatedArb` from the scanner. -/
def detectCorrelatedArb (g : EventGroup) : Option Opportunity :=
  if g.markets.length < 2 then none
  else
    let noPrices := g.markets.map losePrice
    let totalNoCost := noPrices.foldl jsAdd (some 0)
    let minPayout : Option ℚ := some ((g.markets.length : ℚ) - 1)
    let edge := jsDiv (jsSub minPayout totalNoCost) (some (g.markets.length : ℚ))
    if jsLeB edge (some 0) then none
    else some
      { type := "CORRELATED_DATE_ARB"
        name := g.event ++ " (" ++ toString g.markets.length ++ " date markets)"
        edge := edge
        cost := totalNoCost
        payout := minPayout
        prices := noPrices
        marketCount := g.markets.length
        totalVolume := g.markets.foldl (fun a m => jsAdd a (marketVolume m)) (some 0)
        markets := g.markets }

/-- JSON whitespace. -/
def jsonWs (c : Char) : Bool := c = ' ' || c = '\t' || c = '\n' || c = '\r'

/-- The value of a hexadecimal digit, if any. -/
def hexVal (c : Char) : Option ℕ :=
  if c.isDigit then some (c.toNat - 48)
  else if 'a' ≤ c && c ≤ 'f' then some (c.toNat - 87)
  else if 'A' ≤ c && c ≤ 'F' then some (c.toNat - 55)
  else none

/-- Body of a JSON string literal (after the opening quote):
accumulates characters up to the closing quote.  All escapes are
handled; raw control characters make the decode fail (invalid JSON).
A `\u` escape yields the character of its code unit; a code unit
that is not a Unicode scalar value (a lone surrogate) exists in a JS
string but not in `Char`, so `Char.ofNat` maps it to the NUL
placeholder — like the surrogate it stands for, the placeholder is
neither numeric nor whitespace, and the program feeds decoded
strings only to `parseFloat`, for which the two are
interchangeable. -/
def jsonStringAux : List Char → List Char → Option (List Char × List Char)
  | _, [] => none
  | acc, '"' :: r => some (acc.reverse, r)
  | acc, '\\' :: 'u' :: h1 :: h2 :: h3 :: h4 :: r =>
    (match hexVal h1, hexVal h2, hexVal h3, hexVal h4 with
     | some a, some b, some c, some d =>
       jsonStringAux (Char.ofNat (4096 * a + 256 * b + 16 * c + d) :: acc) r
     | _, _, _, _ => none)
  | acc, '\\' :: e :: r =>
    match e with
    | '"' => jsonStringAux ('"' :: acc) r
    | '\\' => jsonStringAux ('\\' :: acc) r
    | '/' => jsonStringAux ('/' :: acc) r
    | 'b' => jsonStringAux ('\x08' :: acc) r
    | 'f' => jsonStringAux ('\x0c' :: acc) r
    | 'n' => jsonStringAux ('\n' :: acc) r
    | 'r' => jsonStringAux ('\r' :: acc) r
    | 't' => jsonStringAux ('\t' :: acc) r
    | _ => none
  | _, ['\\'] => none
  | acc, c :: r => if c.toNat < 32 then none else jsonStringAux (c :: acc) r

/-- A JSON number (strict grammar: optional minus, `0` or a
nonzero-led digit run, optional fraction with at least one digit,
optional exponent with at least one digit). -/
def jsonNumber (l : List Char) : Option (ℚ × List Char) :=
  let signed := match l with | '-' :: r => (true, r) | _ => (false, l)
  match signed.2 with
  | c :: r =>
    if ¬ c.isDigit then none
    else if c = '0' && (match r with | d :: _ => d.isDigit | [] => false) then none
    else
      let ip := c :: r.takeWhile Char.isDigit
      let r1 := r.dropWhile Char.isDigit
      let fracStep : Option (List Char × List Char) :=
        match r1 with
        | '.' :: r2 =>
          if (r2.takeWhile Char.isDigit).isEmpty then none
          else some (r2.takeWhile Char.isDigit, r2.dropWhile Char.isDigit)
        | _ => some ([], r1)
      match fracStep with
      | none => none
      | some (fp, r3) =>
        let expStep : Option (ℤ × List Char) :=
          match r3 with
          | 'e' :: r4 | 'E' :: r4 =>
            let se := match r4 with
              | '+' :: r5 => (true, r5)
              | '-' :: r5 => (false, r5)
              | _ => (true, r4)
            if (se.2.takeWhile Char.isDigit).isEmpty then none
            else
              let n : ℤ := digitsToNat (se.2.takeWhile Char.isDigit)
              some (if se.1 then n else -n, se.2.dropWhile Char.isDigit)
          | _ => some (0, r3)
        match expStep with
        | none => none
        | some (ex, r6) =>
          let base : ℚ := (digitsToNat ip : ℚ) + (digitsToNat fp : ℚ) / ((10 : ℚ) ^ fp.length)
          some ((if signed.1 then -base else base) * (10 : ℚ) ^ ex, r6)
  | [] => none

/-- A `JSON.parse` result: scalars, arrays and objects, fully
recursive. -/
inductive JVal where
  | jnull
  | jbool (b : Bool)
  | jnum (q : ℚ)
  | jstr (s : String)
  | jarr (elems : List JVal)
  | jobj (fields : List (String × JVal))

mutual

/-- One JSON value by recursive descent.  The fuel is a termination
device only: every two levels of recursion consume at least one
input character, so the `2 * length + 2` the entry point passes
always suffices. -/
def jsonV : ℕ → List Char → Option (JVal × List Char)
  | 0, _ => none
  | f + 1, l =>
    match l with
    | '"' :: r => (jsonStringAux [] r).map (fun p => (.jstr (String.mk p.1), p.2))
    | 't' :: 'r' :: 'u' :: 'e' :: r => some (.jbool true, r)
    | 'f' :: 'a' :: 'l' :: 's' :: 'e' :: r => some (.jbool false, r)
    | 'n' :: 'u' :: 'l' :: 'l' :: r => some (.jnull, r)
    | '[' :: r =>
      (match r.dropWhile jsonWs with
       | ']' :: r2 => some (.jarr [], r2)
       | r1 => (jsonArr f r1).map (fun p => (.jarr p.1, p.2)))
    | '{' :: r =>
      (match r.dropWhile jsonWs with
       | '}' :: r2 => some (.jobj [], r2)
       | r1 => (jsonObj f r1).map (fun p => (.jobj p.1, p.2)))
    | _ => (jsonNumber l).map (fun p => (.jnum p.1, p.2))

/-- The comma-separated elements of a non-empty JSON array,
positioned at a value; consumes the closing bracket. -/
def jsonArr : ℕ → List Char → Option (List JVal × List Char)
  | 0, _ => none
  | f + 1, l =>
    (jsonV f l).bind (fun p =>
      match p.2.dropWhile jsonWs with
      | ',' :: r2 => (jsonArr f (r2.dropWhile jsonWs)).map (fun q => (p.1 :: q.1, q.2))
      | ']' :: r2 => some ([p.1], r2)
      | _ => none)

/-- The comma-separated members of a non-empty JSON object,
positioned at a key; consumes the closing brace. -/
def jsonObj : ℕ → List Char → Option (List (String × JVal) × List Char)
  | 0, _ => none
  | f + 1, l =>
    match l with
    | '"' :: r =>
      (jsonStringAux [] r).bind (fun kp =>
        match kp.2.dropWhile jsonWs with
        | ':' :: r2 =>
          (jsonV f (r2.dropWhile jsonWs)).bind (fun p =>
            match p.2.dropWhile jsonWs with
            | ',' :: r3 =>
              (jsonObj f (r3.dropWhile jsonWs)).map
                (fun q => ((String.mk kp.1, p.1) :: q.1, q.2))
            | '}' :: r3 => some ([(String.mk kp.1, p.1)], r3)
            | _ => none)
        | _ => none)
    | _ => none

end

/-- `JSON.parse`: one JSON value surrounded by optional whitespace;
`none` models a thrown `SyntaxError`. -/
def jsonParse (s : String) : Option JVal :=
  let l := s.data.dropWhile jsonWs
  (jsonV (2 * l.length + 2) l).bind
    (fun p => if (p.2.dropWhile jsonWs).isEmpty then some p.1 else none)

/-- `parseFloat` on a decoded JSON value.  A number re-parses to
itself (in the exact-decimal model number-to-string round-trips); an
array stringifies to its elements joined by commas — `null` joining
as the empty string — so the parse stops at the first comma and the
result is the parse of the first element (NaN for the empty array);
an object stringifies to `[object Object]`, hence NaN, as do
booleans and `null`. -/
def jvalParseFloat : JVal → Option ℚ
  | .jnum q => some q
  | .jstr s => parseFloatStr s
  | .jbool _ => none
  | .jnull => none
  | .jobj _ => none
  | .jarr [] => none
  | .jarr (v :: _) => jvalParseFloat v

/-- The price list of the mutually-exclusive rule: a literal array is
mapped through `parseFloat`; a string is `JSON.parse`d and, when the
result is an array, mapped through `parseFloat` (a parse error and
the `TypeError` of calling `.map` on a decoded non-array are caught
by the same `catch`, hence `none`); any other value takes the
"return null" path of the source. -/
def mePriceList (m : Market) : Option (List (Option ℚ)) :=
  match m.outcomePrices with
  | .arr l => some (l.map parseFloatPrim)
  | .str s =>
    match jsonParse s with
    | some (.jarr l) => some (l.map jvalParseFloat)
    | _ => none
  | _ => none

/-- `detectMutuallyExclusiveArb` from the scanner.  Note the length
guards carry JS comparison semantics: `(market.outcomes || []).length`
is `undefined` for a truthy non-array non-string `outcomes` field, so
the `< 3` guard does not fire, and the later strict `!==` length
comparison then always reports a mismatch. -/
def detectMutuallyExclusiveArb (m : Market) : Option Opportunity :=
  let outs := JSVal.jsOr m.outcomes (.arr [])
  if jsLtB (JSVal.lenQ outs) (some 3) then none
  else
    match mePriceList m with
    | none => none
    | some prices =>
      if ¬ (JSVal.lenQ outs = some (prices.length : ℚ)) then none
      else
        let totalCost := prices.foldl jsAdd (some 0)
        let edge := jsSub (some 1) totalCost
        if jsLeB edge (some 0) then none
        else some
          { type := "MUTUALLY_EXCLUSIVE_ARB"
            name := marketName m
            edge := edge
            cost := totalCost
            payout := some 1
            prices := prices
            marketCount := 1
            totalVolume := marketVolume m
            markets := [m] }

/-- Case-insensitive literal-pattern strip: `stripCI p s` consumes
`p` (given in lowercase) from the front of `s`, comparing the input
lowercased, and returns the rest. -/
def stripCI : List Char → List Char → Option (List Char)
  | [], s => some s
  | _ :: _, [] => none
  | p :: ps, c :: cs => if c.toLower = p then stripCI ps cs else none

/-- The `\b` test after a consumed token whose last character is a
word character: the next character must be absent or a non-word
character. -/
def wordBd : List Char → Bool
  | [] => true
  | c :: _ => !(isWordChar c)

/-- The preposition alternatives of the date-qualifier pattern, in
the source's alternation order. -/
def prepList : List (List Char) := (["by", "before", "after", "in", "on"]).map String.data

/-- The month-name alternatives, in the source's alternation order. -/
def monthList : List (List Char) :=
  (["january", "february", "march", "april", "may", "june", "july", "august",
    "september", "october", "november", "december"]).map String.data

/-- Ordered alternation of literal patterns, each followed by `\b`:
the first alternative that strips and passes the boundary test wins;
an alternative that strips but fails the boundary is backtracked. -/
def matchAlts (pats : List (List Char)) (s : List Char) : Option (List Char) :=
  match pats with
  | [] => none
  | p :: ps =>
    match stripCI p s with
    | some r => if wordBd r then some r else matchAlts ps s
    | none => matchAlts ps s

/-- The `\d(4)` alternative, positioned after the first digit `c2`:
three more digits then `\b`. -/
def digFour (c2 : Char) (r2 : List Char) : Option (List Char) :=
  match r2 with
  | c3 :: c4 :: r4 =>
    if c2.isDigit && c3.isDigit && c4.isDigit && wordBd r4 then some r4 else none
  | _ => none

/-- `(\d(1,2)|\d(4))\b` with the regex's greedy/backtracking order:
two digits then boundary, else one digit then boundary, else four
digits then boundary. -/
def digTok (s : List Char) : Option (List Char) :=
  match s with
  | [] => none
  | [c1] => if c1.isDigit then some [] else none
  | c1 :: c2 :: r2 =>
    if ¬ c1.isDigit then none
    else if c2.isDigit && wordBd r2 then some r2
    else if !(isWordChar c2) then some (c2 :: r2)
    else digFour c2 r2

/-- The second group of the date-qualifier pattern: a month name, a
one-or-two digit number, or a four digit number, each closed by
`\b`. -/
def matchTok (s : List Char) : Option (List Char) :=
  match matchAlts monthList s with
  | some r => some r
  | none => digTok s

/-- `\s+` (greedy; the following token never starts with whitespace,
so no backtracking into the run is needed). -/
def spaces1 : List Char → Option (List Char)
  | [] => none
  | c :: r => if isSpaceChar c then some (r.dropWhile isSpaceChar) else none

/-- The preposition alternation with its full continuation: a
preposition that strips but whose continuation (`\s+` then token)
fails is backtracked and the next alternative is tried. -/
def tryPreps : List (List Char) → List Char → Option (List Char)
  | [], _ => none
  | p :: ps, s =>
    match stripCI p s with
    | none => tryPreps ps s
    | some r1 =>
      match spaces1 r1 with
      | none => tryPreps ps s
      | some r2 =>
        match matchTok r2 with
        | none => tryPreps ps s
        | some r3 => some r3

/-- Match of the date-qualifier pattern
`\b(by|before|after|in|on)\s+(month|\d(1,2)|\d(4))\b` at the current
position (the caller has already established the leading `\b`);
returns the rest of the input after the match. -/
def rule1At (s : List Char) : Option (List Char) := tryPreps prepList s

/-- The ordinal-suffix alternatives. -/
def sufList : List (List Char) := (["st", "nd", "rd", "th"]).map String.data

/-- `(st|nd|rd|th)?\b` after the digits of the ordinal pattern: try
each suffix closed by `\b`, then the empty suffix closed by `\b`. -/
def afterDigits (r : List Char) : Option (List Char) :=
  match matchAlts sufList r with
  | some r' => some r'
  | none => if wordBd r then some r else none

/-- Match of the ordinal pattern `\b\d(1,2)(st|nd|rd|th)?\b` at the
current position, with the regex's greedy order (two digits first,
then one). -/
def rule2At (s : List Char) : Option (List Char) :=
  match s with
  | [] => none
  | c1 :: rest =>
    if ¬ c1.isDigit then none
    else
      match rest with
      | [] => afterDigits []
      | c2 :: r2 =>
        if c2.isDigit then
          match afterDigits r2 with
          | some r => some r
          | none => afterDigits rest
        else afterDigits rest

/-- Match of the standalone yes/no pattern `\b(yes|no)\b`. -/
def rule3At (s : List Char) : Option (List Char) := matchAlts ((["yes", "no"]).map String.data) s

/-- Global regex deletion (`.replace(pat, '')` with the `g` flag):
scan the input left to right; at each position following a non-word
character attempt the pattern match and, on success, drop the match
and continue right after it.  Every pattern used here both starts and
ends with a word character, so a position after a word character can
never start a match, and the character preceding the continuation of
a match is always a word character — `prevW` tracks exactly the
word-ness of the previous character.  The fuel argument is only a
termination device; it is always at least the input length. -/
def gsubDelF (matchAt : List Char → Option (List Char)) : ℕ → Bool → List Char → List Char
  | 0, _, rest => rest
  | _ + 1, _, [] => []
  | f + 1, prevW, c :: cs =>
    if prevW then c :: gsubDelF matchAt f (isWordChar c) cs
    else
      match matchAt (c :: cs) with
      | some rest => gsubDelF matchAt f true rest
      | none => c :: gsubDelF matchAt f (isWordChar c) cs

/-- Global deletion with explicit previous-character word-ness. -/
def gsubP (matchAt : List Char → Option (List Char)) (b : Bool) (s : List Char) : List Char :=
  gsubDelF matchAt s.length b s

/-- Global deletion from the start of a string. -/
def gsubDel (matchAt : List Char → Option (List Char)) (s : List Char) : List Char :=
  gsubDelF matchAt s.length false s

/-- `.replace(whitespace-run, ' ')`: each maximal run of whitespace
becomes a single space (the flag records whether the previous
character was whitespace). -/
def collapseWs : Bool → List Char → List Char
  | _, [] => []
  | true, c :: cs => if isSpaceChar c then collapseWs true cs else c :: collapseWs false cs
  | false, c :: cs => if isSpaceChar c then ' ' :: collapseWs true cs else c :: collapseWs false cs

/-- `.trim()`. -/
def trimChars (l : List Char) : List Char :=
  ((l.dropWhile isSpaceChar).reverse.dropWhile isSpaceChar).reverse

/-- `extractBaseEvent` from the API client: remove date-qualifier
phrases, remove ordinal day tokens, remove standalone yes/no tokens,
collapse whitespace, trim, truncate to 50 characters — in that
order. -/
def extractBaseEvent (q : String) : String :=
  let l1 := gsubDel rule1At q.data
  let l2 := gsubDel rule2At l1
  let l3 := gsubDel rule3At l2
  String.mk ((trimChars (collapseWs false l3)).take 50)

/-- Whether a string is an array-index property key in the sense of
the ECMAScript own-property order: the canonical decimal numeral of
an integer below 2^32 - 1 (no leading zeros). -/
def isArrayIndexKey (s : String) : Bool :=
  s ≠ "" && s.data.all Char.isDigit && (s = "0" || s.data.head? ≠ some '0')
    && digitsToNat s.data < 4294967295

/-- Stable insertion into a list of buckets sorted by ascending
numeric key value. -/
def insertByNat (p : String × List Market) :
    List (String × List Market) → List (String × List Market)
  | [] => [p]
  | q :: rest =>
    if digitsToNat q.1.data ≤ digitsToNat p.1.data then q :: insertByNat p rest
    else p :: q :: rest

/-- Sort buckets by ascending numeric key value. -/
def sortByNat (l : List (String × List Market)) : List (String × List Market) :=
  l.foldr insertByNat []

/-- `Object.entries` enumeration order for a string-keyed object:
array-index keys first in ascending numeric order, then the remaining
keys in insertion order. -/
def jsObjEntries (l : List (String × List Market)) : List (String × List Market) :=
  sortByNat (l.filter (fun p => isArrayIndexKey p.1))
    ++ l.filter (fun p => !(isArrayIndexKey p.1))

/-- `groups[baseEvent].push(market)` with creation of a missing
bucket: buckets are kept in insertion order of their keys.  The
model treats the bucket object as a clean map; in the source
`groups` is a plain object, so a canonical key colliding with an
`Object.prototype` property name (such as `toString`) would make
`groups[baseEvent].push` throw — keys that normalize to such names
are outside this model. -/
def addToBuckets :
    List (String × List Market) → String → Market → List (String × List Market)
  | [], k, m => [(k, [m])]
  | (k', g) :: rest, k, m =>
    if k' = k then (k', g ++ [m]) :: rest else (k', g) :: addToBuckets rest k m

/-- The canonical key of a market: `extractBaseEvent(market.question || '')`. -/
def marketKey (m : Market) : String := extractBaseEvent (m.question.getD "")

/-- The bucket table built by `findRelatedMarkets`. -/
def marketBuckets (ms : List Market) : List (String × List Market) :=
  ms.foldl (fun acc m => addToBuckets acc (marketKey m) m) []

/-- `findRelatedMarkets` from the API client: bucket by canonical
key, enumerate the buckets in JS object key order, keep only buckets
with more than one member. -/
def findRelatedMarkets (ms : List Market) : List EventGroup :=
  ((jsObjEntries (marketBuckets ms)).filter (fun p => 1 < p.2.length)).map
    (fun p => ⟨p.1, p.2⟩)

/-- The scanner's minimum-edge report threshold (2%). -/
def MIN_EDGE : ℚ := 2/100

/-- The scanner's declared minimum-liquidity threshold.  It is
declared in the source and never read by any detection or filtering
logic; it appears here only so that this fact can be stated. -/
def MIN_VOLUME : ℚ := 10000

/-- Sort key of the final `.sort((a, b) => b.edge - a.edge)`.  Every
opportunity reaching the sort has passed the `edge >= MIN_EDGE`
filter, so its edge is a genuine rational; the `getD` default is
never exercised. -/
def edgeKey (o : Opportunity) : ℚ := o.edge.getD 0

/-- Stable insertion into a list sorted by descending edge. -/
def insDesc (o : Opportunity) : List Opportunity → List Opportunity
  | [] => [o]
  | x :: xs => if edgeKey o < edgeKey x then x :: insDesc o xs else o :: x :: xs

/-- Stable sort by descending edge (`Array.prototype.sort` is stable;
a stable insertion sort by the same comparator). -/
def sortByEdgeDesc (l : List Opportunity) : List Opportunity := l.foldr insDesc []

/-- The basic-rule pass of `scan`: detect per market, keep results
with `edge >= MIN_EDGE`. -/
def scanBasic (ms : List Market) : List Opportunity :=
  ms.filterMap (fun m =>
    match detectBasicArb m with
    | some o => if jsGeB o.edge (some MIN_EDGE) then some o else none
    | none => none)

/-- The correlated pass of `scan`. -/
def scanCorrelated (ms : List Market) : List Opportunity :=
  (findRelatedMarkets ms).filterMap (fun g =>
    match detectCorrelatedArb g with
    | some o => if jsGeB o.edge (some MIN_EDGE) then some o else none
    | none => none)

/-- `(m.outcomes?.length || 0)`. -/
def outcomesLenOrZero (m : Market) : ℚ := (JSVal.lenQ m.outcomes).getD 0

/-- The mutually-exclusive pass of `scan`: only markets with more
than two outcomes are examined. -/
def scanME (ms : List Market) : List Opportunity :=
  (ms.filter (fun m => 2 < outcomesLenOrZero m)).filterMap (fun m =>
    match detectMutuallyExclusiveArb m with
    | some o => if jsGeB o.edge (some MIN_EDGE) then some o else none
    | none => none)

/-- The `scan` pipeline: the three passes in source order, then the
descending sort by edge. -/
def scan (ms : List Market) : List Opportunity :=
  sortByEdgeDesc (scanBasic ms ++ scanCorrelated ms ++ scanME ms)

/-- The watcher's basic yes price:
`parseFloat(market.outcomePrices?.[0] || 0.5)` (no `yes_price`
fallback in the watcher). -/
def watchYes (m : Market) : Option ℚ :=
  parseFloatJS (JSVal.jsOr (m.outcomePrices.optIdx 0) (.num (1/2)))

/-- The watcher's basic no price:
`parseFloat(market.outcomePrices?.[1] || 0.5)`. -/
def watchNo (m : Market) : Option ℚ :=
  parseFloatJS (JSVal.jsOr (m.outcomePrices.optIdx 1) (.num (1/2)))

/-- The notification loop of a watch cycle over the identity keys of
the cycle's opportunities: a key not in the seen set is notified and
inserted (insertion happens before the alert is sent); a key already
present is skipped.  The JS `Set` is modelled as an insertion-ordered
duplicate-free list; returns the new seen set and the notified keys
in order. -/
def cycleNotify : List String → List String → List String × List String
  | seen, [] => (seen, [])
  | seen, oid :: rest =>
    if oid ∈ seen then cycleNotify seen rest
    else
      let p := cycleNotify (seen ++ [oid]) rest
      (p.1, oid :: p.2)

/-- The watcher's tracker bound. -/
def SEEN_BOUND : ℕ := 1000

/-- One watch cycle's effect on the tracker: notify the new keys,
then clear the whole set if its size exceeds the bound. -/
def watchCycleTracker (seen : List String) (opps : List String) :
    List String × List String :=
  let p := cycleNotify seen opps
  (if SEEN_BOUND < p.1.length then [] else p.1, p.2)

/-- For a genuine (non-NaN) sum, `1 - s <= 0` is `s >= 1`; both sides
are false at NaN. -/
theorem jsLeB_one_sub (s : Option ℚ) :
    jsLeB (jsSub (some 1) s) (some 0) = jsGeB s (some 1) := by
  cases s with
  | none => rfl
  | some a => simp [jsLeB, jsSub, jsGeB, sub_nonpos]

/-- `a || b` takes the right operand when the left is falsy. -/
theorem jsOr_of_falsy (a b : JSVal) (h : a.truthy = false) : JSVal.jsOr a b = b := by
  simp [JSVal.jsOr, h]

/-- The cost computed by the correlated rule: the sum of the
per-market lose prices. -/
def corrCost (g : EventGroup) : Option ℚ := (g.markets.map losePrice).foldl jsAdd (some 0)

/-- The edge computed by the correlated rule:
`(minPayout - cost) / n` with `minPayout = n - 1`. -/
def corrEdge (g : EventGroup) : Option ℚ :=
  jsDiv (jsSub (some ((g.markets.length : ℚ) - 1)) (corrCost g)) (some (g.markets.length : ℚ))

/-- Modelled from the words of claims C1 and C2: "the i-th outcome
price, defaulting to 0.5 when absent" — reading the price entry
itself when it is present (without the source's falsy-coalescing into
the `yes_price`/`no_price` fields and the 0.5 default). -/
def specPriceAt (m : Market) (i : ℕ) : Option ℚ :=
  match m.outcomePrices.optIdx i with
  | .undef => some (1/2)
  | v => parseFloatJS v

/-- C1 (amended): for every market, `detectBasicArb` returns no
signal iff yes + no >= 1, where yes is `parseFloat` of the first
outcome price falling back to the `yes_price` field and then to 0.5
when absent or falsy, and likewise no with the second outcome price
and `no_price`; otherwise the returned opportunity has exactly
`edge = 1 - (yes + no)`, `cost = yes + no` and payout 1.0 (a NaN
price yields a NaN edge and a returned opportunity, since the NaN
comparison with 0 is false). -/
theorem claim1_basic_rule (m : Market) :
    (detectBasicArb m = none ↔ jsGeB (jsAdd (basicYes m) (basicNo m)) (some 1) = true) ∧
    (∀ o, detectBasicArb m = some o →
      o.edge = jsSub (some 1) (jsAdd (basicYes m) (basicNo m)) ∧
      o.cost = jsAdd (basicYes m) (basicNo m) ∧ o.payout = some 1) := by
  by_cases h : jsLeB (jsSub (some 1) (jsAdd (basicYes m) (basicNo m))) (some 0) = true
  · constructor
    · simp [detectBasicArb, h, ← jsLeB_one_sub]
    · intro o ho
      simp [detectBasicArb, h] at ho
  · constructor
    · simp [detectBasicArb, h, ← jsLeB_one_sub]
    · intro o ho
      simp [detectBasicArb, h] at ho
      subst ho
      exact ⟨rfl, rfl, rfl⟩

/-- The market of the C1 counterexample: both outcome prices present
and equal to the number 0. -/
def mBothZero : Market := { outcomePrices := .arr [.num 0, .num 0] }

/-- C1 counterexample: with both outcome prices present and zero the
claim reads yes = no = 0, so yes + no < 1 and an opportunity with
edge 1 is required; the source coalesces the falsy prices into the
0.5 defaults and returns no signal. -/
theorem claim1_counterexample :
    detectBasicArb mBothZero = none ∧
    jsGeB (jsAdd (specPriceAt mBothZero 0) (specPriceAt mBothZero 1)) (some 1) = false := by
  with_unfolding_all decide

/-- The market of the C1 witness. -/
def mWit1 : Market := { outcomePrices := .arr [.str "0.45", .str "0.52"] }

/-- The opportunity produced on `mWit1`. -/
def oWit1 : Opportunity :=
  { type := "BASIC_ARB"
    name := "Unknown Market"
    edge := some (3/100)
    cost := some (97/100)
    payout := some 1
    prices := [some (9/20), some (13/25)]
    marketCount := 1
    totalVolume := some 0
    markets := [mWit1] }

/-- C1 witness: the amended claim applied to a concrete market
quoting 0.45 + 0.52. -/
theorem claim1_basic_rule_witness :
    detectBasicArb mWit1 = some oWit1 ∧
    oWit1.edge = jsSub (some 1) (jsAdd (basicYes mWit1) (basicNo mWit1)) ∧
    oWit1.cost = jsAdd (basicYes mWit1) (basicNo mWit1) ∧ oWit1.payout = some 1 := by
  have hsome : detectBasicArb mWit1 = some oWit1 := by with_unfolding_all decide
  exact ⟨hsome, (claim1_basic_rule mWit1).2 oWit1 hsome⟩

/-- A two-outcome market literal used by the C2 examples. -/
def mYesLose (yes lose : String) : Market := { outcomePrices := .arr [.str yes, .str lose] }

/-- The no-signal example group of C2: lose prices 0.82, 0.75, 0.62. -/
def gClaim2Neg : EventGroup :=
  ⟨"US strikes Iran 2026?", [mYesLose "0.15" "0.82", mYesLose "0.22" "0.75", mYesLose "0.35" "0.62"]⟩

/-- The signal example group of C2: lose prices 0.30, 0.30, 0.30. -/
def gClaim2Pos : EventGroup :=
  ⟨"ev", [mYesLose "0.15" "0.30", mYesLose "0.22" "0.30", mYesLose "0.35" "0.30"]⟩

/-- C2 (amended): for every group of n >= 2 markets the correlated
rule computes cost as the sum of the per-market lose prices — each
obtained by `parseFloat` of the second outcome price, falling back to
the `no_price` field and then to 0.5 when absent or falsy —
minPayout = n - 1 and edge = (minPayout - cost) / n, and returns an
opportunity iff it is not the case that edge <= 0 (for a genuine
numeric edge this is edge > 0; a NaN edge also signals); for n < 2 it
returns no signal.  The group with lose prices 0.82, 0.75, 0.62 costs
2.19 with a negative edge and gives no signal; the group with lose
prices 0.30, 0.30, 0.30 costs 0.9 and signals with edge
(2 - 0.9) / 3 = 11 / 30. -/
theorem claim2_correlated_rule :
    (∀ g : EventGroup,
      (g.markets.length < 2 → detectCorrelatedArb g = none) ∧
      (2 ≤ g.markets.length →
        (detectCorrelatedArb g = none ↔ jsLeB (corrEdge g) (some 0) = true) ∧
        (∀ o, detectCorrelatedArb g = some o →
          o.edge = corrEdge g ∧ o.cost = corrCost g ∧
          o.payout = some ((g.markets.length : ℚ) - 1) ∧ o.marketCount = g.markets.length))) ∧
    (detectCorrelatedArb gClaim2Neg = none ∧ corrCost gClaim2Neg = some (219/100) ∧
      corrEdge gClaim2Neg = some ((2 - 219/100) / 3)) ∧
    ((detectCorrelatedArb gClaim2Pos).map (fun o => (o.cost, o.edge)) =
      some (some (9/10), some (11/30))) := by
  refine ⟨fun g => ⟨fun hlt => by simp [detectCorrelatedArb, hlt], fun hge => ?_⟩,
    by with_unfolding_all decide, by with_unfolding_all decide⟩
  have hnlt : ¬ g.markets.length < 2 := by omega
  by_cases h : jsLeB (corrEdge g) (some 0) = true
  · refine ⟨by simp [detectCorrelatedArb, hnlt, corrEdge, corrCost] at h ⊢, ?_⟩
    intro o ho
    simp [detectCorrelatedArb, hnlt, corrEdge, corrCost] at h ho
    simp [h] at ho
  · refine ⟨by simp [detectCorrelatedArb, hnlt, corrEdge, corrCost] at h ⊢, ?_⟩
    intro o ho
    simp only [Bool.not_eq_true] at h
    simp [detectCorrelatedArb, hnlt, corrEdge, corrCost, h] at ho
    obtain ⟨-, rfl⟩ := ho
    exact ⟨rfl, rfl, rfl, rfl⟩

/-- Modelled from the words of claim C2: the claim's cost, summing
`specPriceAt · 1` over the group. -/
def specCorrCost (g : EventGroup) : Option ℚ :=
  (g.markets.map (fun m => specPriceAt m 1)).foldl jsAdd (some 0)

/-- The C2 counterexample group: two markets whose second outcome
price is present and equal to the number 0. -/
def gCounter2 : EventGroup :=
  ⟨"ev", [{ outcomePrices := .arr [.str "0.5", .num 0] },
          { outcomePrices := .arr [.str "0.5", .num 0] }]⟩

/-- C2 counterexample: reading the present lose prices as the claim
states gives cost 0 and edge (1 - 0) / 2 > 0, requiring a signal; the
source coalesces the falsy prices into the 0.5 defaults, computes
edge 0 and returns no signal. -/
theorem claim2_counterexample :
    detectCorrelatedArb gCounter2 = none ∧
    specCorrCost gCounter2 = some 0 ∧
    jsGtB (jsDiv (jsSub (some ((gCounter2.markets.length : ℚ) - 1)) (specCorrCost gCounter2))
        (some (gCounter2.markets.length : ℚ))) (some 0) = true := by
  with_unfolding_all decide

/-- The opportunity produced on `gClaim2Pos`. -/
def oWit2 : Opportunity :=
  { type := "CORRELATED_DATE_ARB"
    name := "ev (3 date markets)"
    edge := some (11/30)
    cost := some (9/10)
    payout := some 2
    prices := [some (3/10), some (3/10), some (3/10)]
    marketCount := 3
    totalVolume := some 0
    markets := gClaim2Pos.markets }

/-- C2 witness: the general statement applied to the concrete
three-market group with lose prices 0.30, 0.30, 0.30. -/
theorem claim2_correlated_rule_witness :
    2 ≤ gClaim2Pos.markets.length ∧
    detectCorrelatedArb gClaim2Pos = some oWit2 ∧
    (oWit2.edge = corrEdge gClaim2Pos ∧ oWit2.cost = corrCost gClaim2Pos ∧
      oWit2.payout = some ((gClaim2Pos.markets.length : ℚ) - 1) ∧
      oWit2.marketCount = gClaim2Pos.markets.length) := by
  have hsome : detectCorrelatedArb gClaim2Pos = some oWit2 := by with_unfolding_all decide
  exact ⟨by decide, hsome,
    ((claim2_correlated_rule.1 gClaim2Pos).2 (by decide)).2 oWit2 hsome⟩

/-- `(market.outcomes || []).length` as a JS number. -/
def meOutsLen (m : Market) : Option ℚ := JSVal.lenQ (JSVal.jsOr m.outcomes (.arr []))

/-- C3 (amended): `detectMutuallyExclusiveArb` returns no signal,
never an error, whenever the outcome count is below 3, or the price
field is neither a literal sequence nor a text encoding, or it is a
text encoding that fails to decode, or the decoded price sequence's
length differs from the outcome sequence's length; when none of these
hold it signals iff it is not the case that the price sum is >= 1 —
so a sequence entry that parses to NaN makes the sum NaN and still
signals, with NaN edge — and a returned opportunity has
edge = 1 - sum, cost = sum and payout 1.0. -/
theorem claim3_mutually_exclusive_rule :
    (∀ m : Market, jsLtB (meOutsLen m) (some 3) = true → detectMutuallyExclusiveArb m = none) ∧
    (∀ m : Market, mePriceList m = none → detectMutuallyExclusiveArb m = none) ∧
    (∀ m : Market, ∀ ps, mePriceList m = some ps → ¬ (meOutsLen m = some (ps.length : ℚ)) →
        detectMutuallyExclusiveArb m = none) ∧
    (∀ m : Market, ∀ ps, mePriceList m = some ps →
        meOutsLen m = some (ps.length : ℚ) →
        jsLtB (meOutsLen m) (some 3) = false →
        (detectMutuallyExclusiveArb m = none ↔ jsGeB (ps.foldl jsAdd (some 0)) (some 1) = true) ∧
        (∀ o, detectMutuallyExclusiveArb m = some o →
          o.edge = jsSub (some 1) (ps.foldl jsAdd (some 0)) ∧
          o.cost = ps.foldl jsAdd (some 0) ∧ o.payout = some 1)) := by
  refine ⟨?_, ?_, ?_, ?_⟩
  · intro m h
    simp [meOutsLen] at h
    simp [detectMutuallyExclusiveArb, h]
  · intro m h
    by_cases hc : jsLtB (meOutsLen m) (some 3) = true
    · simp [meOutsLen] at hc
      simp [detectMutuallyExclusiveArb, hc]
    · simp [meOutsLen] at hc
      simp [detectMutuallyExclusiveArb, hc, h]
  · intro m ps hps hlen
    by_cases hc : jsLtB (meOutsLen m) (some 3) = true
    · simp [meOutsLen] at hc
      simp [detectMutuallyExclusiveArb, hc]
    · simp [meOutsLen] at hc hlen
      simp [detectMutuallyExclusiveArb, hc, hps, hlen]
  · intro m ps hps hlen hc
    simp [meOutsLen] at hc hlen
    rw [hlen] at hc
    by_cases h : jsLeB (jsSub (some 1) (ps.foldl jsAdd (some 0))) (some 0) = true
    · constructor
      · simp [detectMutuallyExclusiveArb, hc, hps, hlen, h, ← jsLeB_one_sub]
      · intro o ho
        simp [detectMutuallyExclusiveArb, hc, hps, hlen, h] at ho
    · constructor
      · simp [detectMutuallyExclusiveArb, hc, hps, hlen, h, ← jsLeB_one_sub]
      · intro o ho
        simp [detectMutuallyExclusiveArb, hc, hps, hlen, h] at ho
        obtain ⟨-, rfl⟩ := ho
        exact ⟨rfl, rfl, rfl⟩

/-- The market of the C3 counterexample: three outcomes, a literal
price array that decodes to the right length, but whose first entry
parses to NaN. -/
def mCounter3 : Market :=
  { outcomes := .arr [.str "A", .str "B", .str "C"]
    outcomePrices := .arr [.str "abc", .str "0.3", .str "0.3"] }

/-- C3 counterexample: the market has 3 outcomes and a price sequence
of equal length that decodes without error, so by the claim it must
signal iff the price sum is < 1; the sum is NaN, `NaN < 1` is false
and the claim requires no signal, yet the source returns an
opportunity (with NaN edge). -/
theorem claim3_counterexample :
    mePriceList mCounter3 = some [none, some (3/10), some (3/10)] ∧
    jsLtB ([none, some ((3:ℚ)/10), some (3/10)].foldl jsAdd (some 0)) (some 1) = false ∧
    detectMutuallyExclusiveArb mCounter3 ≠ none := by
  with_unfolding_all decide

/-- The market of the C3 witness: five outcomes with text-encoded
prices summing to 0.95. -/
def mWit3 : Market :=
  { outcomes := .arr [.str "DeSantis", .str "Newsom", .str "Trump", .str "Harris", .str "Other"]
    outcomePrices := .str "[\"0.35\", \"0.30\", \"0.15\", \"0.10\", \"0.05\"]" }

/-- The decoded price list of `mWit3`. -/
def psWit3 : List (Option ℚ) :=
  [some (7/20), some (3/10), some (3/20), some (1/10), some (1/20)]

/-- The opportunity produced on `mWit3`. -/
def oWit3 : Opportunity :=
  { type := "MUTUALLY_EXCLUSIVE_ARB"
    name := "Unknown Market"
    edge := some (1/20)
    cost := some (19/20)
    payout := some 1
    prices := psWit3
    marketCount := 1
    totalVolume := some 0
    markets := [mWit3] }

/-- C3 witness: the amended claim applied to the concrete five
outcome market. -/
theorem claim3_mutually_exclusive_rule_witness :
    mePriceList mWit3 = some psWit3 ∧
    meOutsLen mWit3 = some (psWit3.length : ℚ) ∧
    jsLtB (meOutsLen mWit3) (some 3) = false ∧
    detectMutuallyExclusiveArb mWit3 = some oWit3 ∧
    (oWit3.edge = jsSub (some 1) (psWit3.foldl jsAdd (some 0)) ∧
      oWit3.cost = psWit3.foldl jsAdd (some 0) ∧ oWit3.payout = some 1) := by
  have hps : mePriceList mWit3 = some psWit3 := by with_unfolding_all decide
  have hlen : meOutsLen mWit3 = some (psWit3.length : ℚ) := by with_unfolding_all decide
  have hc : jsLtB (meOutsLen mWit3) (some 3) = false := by with_unfolding_all decide
  have hsome : detectMutuallyExclusiveArb mWit3 = some oWit3 := by with_unfolding_all decide
  exact ⟨hps, hlen, hc, hsome,
    (claim3_mutually_exclusive_rule.2.2.2 mWit3 psWit3 hps hlen hc).2 oWit3 hsome⟩

/-- C7 (amended): each detection function is total — it returns
either an opportunity or no signal on every input, never aborting —
and a missing or falsy price used by the basic or correlated rule
falls back through the `yes_price`/`no_price` field to the neutral
default 0.5; a present but unparseable (truthy) price however parses
to NaN, which propagates so that the detector returns an opportunity
with NaN edge rather than a default-substituted value. -/
theorem claim7_detector_totality :
    (∀ m : Market, detectBasicArb m = none ∨ ∃ o, detectBasicArb m = some o) ∧
    (∀ g : EventGroup, detectCorrelatedArb g = none ∨ ∃ o, detectCorrelatedArb g = some o) ∧
    (∀ m : Market, detectMutuallyExclusiveArb m = none ∨ ∃ o, detectMutuallyExclusiveArb m = some o) ∧
    (∀ m : Market, (m.outcomePrices.optIdx 0).truthy = false → m.yes_price.truthy = false →
      basicYes m = some (1/2)) ∧
    (∀ m : Market, (m.outcomePrices.optIdx 1).truthy = false → m.no_price.truthy = false →
      basicNo m = some (1/2) ∧ losePrice m = some (1/2)) ∧
    (∀ m : Market, jsAdd (basicYes m) (basicNo m) = none →
      ∃ o, detectBasicArb m = some o ∧ o.edge = none) := by
  refine ⟨?_, ?_, ?_, ?_, ?_, ?_⟩
  · intro m
    cases h : detectBasicArb m with
    | none => exact Or.inl rfl
    | some o => exact Or.inr ⟨o, rfl⟩
  · intro g
    cases h : detectCorrelatedArb g with
    | none => exact Or.inl rfl
    | some o => exact Or.inr ⟨o, rfl⟩
  · intro m
    cases h : detectMutuallyExclusiveArb m with
    | none => exact Or.inl rfl
    | some o => exact Or.inr ⟨o, rfl⟩
  · intro m h0 h1
    unfold basicYes
    rw [jsOr_of_falsy _ _ h0, jsOr_of_falsy _ _ h1]
    rfl
  · intro m h0 h1
    have : basicNo m = some (1/2) := by
      unfold basicNo
      rw [jsOr_of_falsy _ _ h0, jsOr_of_falsy _ _ h1]
      rfl
    exact ⟨this, this⟩
  · intro m hnan
    have hedge : jsSub (some 1) (jsAdd (basicYes m) (basicNo m)) = none := by
      rw [hnan]; rfl
    have hcond : jsLeB (jsSub (some 1) (jsAdd (basicYes m) (basicNo m))) (some 0) = false := by
      rw [hedge]; rfl
    refine ⟨{ type := "BASIC_ARB", name := marketName m
              edge := jsSub (some 1) (jsAdd (basicYes m) (basicNo m))
              cost := jsAdd (basicYes m) (basicNo m), payout := some 1
              prices := [basicYes m, basicNo m], marketCount := 1
              totalVolume := marketVolume m, markets := [m] }, ?_, hedge⟩
    simp [detectBasicArb, hcond]

/-- The market of the C7 counterexample: both prices present but
unparseable text. -/
def mCounter7 : Market := { outcomePrices := .arr [.str "abc", .str "def"] }

/-- C7 counterexample: the unparseable prices are not substituted
with 0.5 — they parse to NaN — and instead of the no-signal result
that the claimed substitution (0.5 + 0.5 = 1) would force, the
detector returns an opportunity with NaN edge. -/
theorem claim7_counterexample :
    basicYes mCounter7 = none ∧ basicYes mCounter7 ≠ some (1/2) ∧
    detectBasicArb mCounter7 ≠ none := by
  with_unfolding_all decide

/-- The market of the C7 witness: no price data at all. -/
def mWit7 : Market := {}

/-- C7 witness: the totality and default-substitution statements
applied to a market with no price fields. -/
theorem claim7_detector_totality_witness :
    ((mWit7.outcomePrices.optIdx 0).truthy = false ∧ mWit7.yes_price.truthy = false ∧
      basicYes mWit7 = some (1/2)) ∧
    ((mWit7.outcomePrices.optIdx 1).truthy = false ∧ mWit7.no_price.truthy = false ∧
      basicNo mWit7 = some (1/2)) ∧
    (jsAdd (basicYes mCounter7) (basicNo mCounter7) = none ∧
      ∃ o, detectBasicArb mCounter7 = some o ∧ o.edge = none) := by
  have h0 : (mWit7.outcomePrices.optIdx 0).truthy = false := by decide
  have h1 : mWit7.yes_price.truthy = false := by decide
  have h2 : (mWit7.outcomePrices.optIdx 1).truthy = false := by decide
  have h3 : mWit7.no_price.truthy = false := by decide
  have hnan : jsAdd (basicYes mCounter7) (basicNo mCounter7) = none := by
    with_unfolding_all decide
  exact ⟨⟨h0, h1, claim7_detector_totality.2.2.2.1 mWit7 h0 h1⟩,
    ⟨h2, h3, (claim7_detector_totality.2.2.2.2.1 mWit7 h2 h3).1⟩,
    hnan, claim7_detector_totality.2.2.2.2.2 mCounter7 hnan⟩

/-- C10 (amended): a present but falsy outcome price (the number 0 or
the empty string) is treated by `detectBasicArb` exactly as an absent
one: the detector falls back to the `yes_price` (resp. `no_price`)
field and only then to the default 0.5, and the correlated rule's
lose price behaves identically; the watcher's basic scan, which has
no field fallback, goes directly to 0.5. -/
theorem claim10_falsy_price_fallback :
    (∀ m : Market, (m.outcomePrices.optIdx 0).truthy = false →
      basicYes m = parseFloatJS (JSVal.jsOr m.yes_price (.num (1/2)))) ∧
    (∀ m : Market, (m.outcomePrices.optIdx 1).truthy = false →
      basicNo m = parseFloatJS (JSVal.jsOr m.no_price (.num (1/2))) ∧
      losePrice m = parseFloatJS (JSVal.jsOr m.no_price (.num (1/2)))) ∧
    (∀ m : Market, (m.outcomePrices.optIdx 0).truthy = false → watchYes m = some (1/2)) ∧
    (∀ m : Market, (m.outcomePrices.optIdx 1).truthy = false → watchNo m = some (1/2)) := by
  refine ⟨?_, ?_, ?_, ?_⟩
  · intro m h
    unfold basicYes
    rw [jsOr_of_falsy _ _ h]
  · intro m h
    have : basicNo m = parseFloatJS (JSVal.jsOr m.no_price (.num (1/2))) := by
      unfold basicNo
      rw [jsOr_of_falsy _ _ h]
    exact ⟨this, this⟩
  · intro m h
    unfold watchYes
    rw [jsOr_of_falsy _ _ h]
    rfl
  · intro m h
    unfold watchNo
    rw [jsOr_of_falsy _ _ h]
    rfl

/-- The market of the C10 counterexample: first price present and
zero, but with a `yes_price` field present. -/
def mCounter10 : Market :=
  { outcomePrices := .arr [.num 0, .str "0.6"], yes_price := .num (1/10) }

/-- C10 counterexample: the falsy zero first price is not replaced by
0.5 — the detector falls back to the `yes_price` field (0.1), prices
the market at yes = 0.1, no = 0.6 and signals, whereas the claimed
substitution of 0.5 would price it at 0.5 + 0.6 >= 1 and return no
signal. -/
theorem claim10_counterexample :
    (mCounter10.outcomePrices.optIdx 0).truthy = false ∧
    (detectBasicArb mCounter10).map (fun o => o.prices) = some [some (1/10), some (3/5)] ∧
    basicYes mCounter10 ≠ some (1/2) ∧
    jsGeB (jsAdd (some ((1:ℚ)/2)) (some ((3:ℚ)/5))) (some 1) = true := by
  with_unfolding_all decide

/-- The market of the C10 witness: an empty-string first price and a
zero second price, with no field fallbacks. -/
def mWit10 : Market := { outcomePrices := .arr [.str "", .num 0] }

/-- C10 witness: the amended claim applied to a market with falsy
prices and absent `yes_price`/`no_price` fields. -/
theorem claim10_falsy_price_fallback_witness :
    ((mWit10.outcomePrices.optIdx 0).truthy = false ∧
      basicYes mWit10 = parseFloatJS (JSVal.jsOr mWit10.yes_price (.num (1/2))) ∧
      watchYes mWit10 = some (1/2)) ∧
    ((mWit10.outcomePrices.optIdx 1).truthy = false ∧
      basicNo mWit10 = parseFloatJS (JSVal.jsOr mWit10.no_price (.num (1/2))) ∧
      watchNo mWit10 = some (1/2)) := by
  have h0 : (mWit10.outcomePrices.optIdx 0).truthy = false := by decide
  have h1 : (mWit10.outcomePrices.optIdx 1).truthy = false := by decide
  exact ⟨⟨h0, claim10_falsy_price_fallback.1 mWit10 h0,
      claim10_falsy_price_fallback.2.2.1 mWit10 h0⟩,
    ⟨h1, (claim10_falsy_price_fallback.2.1 mWit10 h1).1,
      claim10_falsy_price_fallback.2.2.2 mWit10 h1⟩⟩

/-- A key already in the seen set is never notified during a cycle. -/
theorem cycleNotify_count_zero (opps : List String) :
    ∀ seen k, k ∈ seen → List.count k (cycleNotify seen opps).2 = 0 := by
  induction opps with
  | nil => intro seen k _; simp [cycleNotify]
  | cons oid rest ih =>
    intro seen k hk
    by_cases h : oid ∈ seen
    · simpa [cycleNotify, h] using ih seen k hk
    · have hne : k ≠ oid := fun he => h (he ▸ hk)
      simp only [cycleNotify, if_neg h]
      simp [List.count_cons, hne, ih (seen ++ [oid]) k (by simp [hk])]

/-- A key not yet seen and present in the cycle's opportunity list is
notified exactly once during the cycle (also when it occurs several
times in the list: it is inserted before its later occurrences are
examined). -/
theorem cycleNotify_count_one (opps : List String) :
    ∀ seen k, k ∉ seen → k ∈ opps → List.count k (cycleNotify seen opps).2 = 1 := by
  induction opps with
  | nil => intro seen k _ hmem; simp at hmem
  | cons oid rest ih =>
    intro seen k hk hmem
    by_cases h : oid ∈ seen
    · have hne : k ≠ oid := fun he => hk (he ▸ h)
      have : k ∈ rest := by
        rcases List.mem_cons.mp hmem with he | hr
        · exact absurd he hne
        · exact hr
      simpa [cycleNotify, h] using ih seen k hk this
    · simp only [cycleNotify, if_neg h]
      by_cases hke : k = oid
      · subst hke
        have : List.count k (cycleNotify (seen ++ [k]) rest).2 = 0 :=
          cycleNotify_count_zero rest (seen ++ [k]) k (by simp)
        simp [List.count_cons, this]
      · have hkr : k ∈ rest := by
          rcases List.mem_cons.mp hmem with he | hr
          · exact absurd he hke
          · exact hr
        have hnotin : k ∉ seen ++ [oid] := by
          simp [hk, hke]
        simp [List.count_cons, hke, ih (seen ++ [oid]) k hnotin hkr]

/-- The seen set after a notification loop holds exactly the keys
seen before plus the cycle's keys. -/
theorem cycleNotify_mem_fst (opps : List String) :
    ∀ seen k, k ∈ (cycleNotify seen opps).1 ↔ (k ∈ seen ∨ k ∈ opps) := by
  induction opps with
  | nil => intro seen k; simp [cycleNotify]
  | cons oid rest ih =>
    intro seen k
    by_cases h : oid ∈ seen
    · simp only [cycleNotify, if_pos h]
      rw [ih seen k]
      constructor
      · rintro (hs | hr)
        · exact Or.inl hs
        · exact Or.inr (List.mem_cons_of_mem _ hr)
      · rintro (hs | hm)
        · exact Or.inl hs
        · rcases List.mem_cons.mp hm with he | hr
          · exact Or.inl (he ▸ h)
          · exact Or.inr hr
    · simp only [cycleNotify, if_neg h]
      rw [ih (seen ++ [oid]) k]
      simp [List.mem_append, or_assoc]

/-- C4: a key already tracked is never forwarded again; a fresh key
present in two consecutive cycles is forwarded exactly once when no
clear intervenes (the first cycle leaves the set within the bound);
and when the set's size exceeds 1000 at the end of a cycle it is
cleared unconditionally, so the next cycle starts with an empty
tracker and a still-active key is re-forwarded exactly once. -/
theorem claim4_tracker_dedup :
    (∀ seen opps k, k ∈ seen → List.count k (watchCycleTracker seen opps).2 = 0) ∧
    (∀ seen opps1 opps2 k, k ∉ seen → k ∈ opps1 → k ∈ opps2 →
      (cycleNotify seen opps1).1.length ≤ SEEN_BOUND →
      List.count k (watchCycleTracker seen opps1).2 = 1 ∧
      List.count k (watchCycleTracker (watchCycleTracker seen opps1).1 opps2).2 = 0) ∧
    (∀ seen opps1 opps2 k, SEEN_BOUND < (cycleNotify seen opps1).1.length →
      (watchCycleTracker seen opps1).1 = [] ∧
      (k ∈ opps2 →
        List.count k (watchCycleTracker (watchCycleTracker seen opps1).1 opps2).2 = 1)) := by
  refine ⟨?_, ?_, ?_⟩
  · intro seen opps k hk
    simpa [watchCycleTracker] using cycleNotify_count_zero opps seen k hk
  · intro seen opps1 opps2 k hk h1 h2 hle
    have hc1 : List.count k (watchCycleTracker seen opps1).2 = 1 := by
      simpa [watchCycleTracker] using cycleNotify_count_one opps1 seen k hk h1
    have hnc : ¬ SEEN_BOUND < (cycleNotify seen opps1).1.length := not_lt.mpr hle
    have hst : (watchCycleTracker seen opps1).1 = (cycleNotify seen opps1).1 := by
      simp [watchCycleTracker, hnc]
    have hmem : k ∈ (cycleNotify seen opps1).1 :=
      (cycleNotify_mem_fst opps1 seen k).mpr (Or.inr h1)
    refine ⟨hc1, ?_⟩
    rw [hst]
    simpa [watchCycleTracker] using cycleNotify_count_zero opps2 _ k hmem
  · intro seen opps1 opps2 k hgt
    have hst : (watchCycleTracker seen opps1).1 = [] := by
      simp [watchCycleTracker, hgt]
    refine ⟨hst, fun h2 => ?_⟩
    rw [hst]
    simpa [watchCycleTracker] using
      cycleNotify_count_one opps2 [] k (by simp) h2

/-- C4 witness: a concrete key active in two consecutive cycles from
an empty tracker is forwarded once and then suppressed. -/
theorem claim4_tracker_dedup_witness :
    ("basic:q" ∉ ([] : List String) ∧ "basic:q" ∈ ["basic:q"] ∧
      (cycleNotify [] ["basic:q"]).1.length ≤ SEEN_BOUND) ∧
    List.count "basic:q" (watchCycleTracker [] ["basic:q"]).2 = 1 ∧
    List.count "basic:q"
      (watchCycleTracker (watchCycleTracker [] ["basic:q"]).1 ["basic:q"]).2 = 0 := by
  have h := claim4_tracker_dedup.2.1 [] ["basic:q"] ["basic:q"] "basic:q"
    (by simp) (by simp) (by simp) (by decide)
  exact ⟨⟨by simp, by simp, by decide⟩, h.1, h.2⟩

/-- Every member of a bucket after an insertion comes from a
same-keyed bucket already present or is the inserted market under the
inserted key. -/
theorem addToBuckets_mem (m : Market) (k : String) :
    ∀ acc p, p ∈ addToBuckets acc k m → ∀ x ∈ p.2,
      (∃ q ∈ acc, q.1 = p.1 ∧ x ∈ q.2) ∨ (x = m ∧ p.1 = k) := by
  intro acc
  induction acc with
  | nil =>
    intro p hp x hx
    simp [addToBuckets] at hp
    subst hp
    simp at hx
    exact Or.inr ⟨hx, rfl⟩
  | cons q rest ih =>
    intro p hp x hx
    by_cases he : q.1 = k
    · rw [show (q :: rest : List (String × List Market)) = (q.1, q.2) :: rest by simp,
        addToBuckets, if_pos he] at hp
      rcases List.mem_cons.mp hp with h1 | h2
      · subst h1
        simp at hx
        rcases hx with hx | hx
        · exact Or.inl ⟨q, List.mem_cons_self q rest, rfl, hx⟩
        · exact Or.inr ⟨hx, he⟩
      · exact Or.inl ⟨p, List.mem_cons_of_mem q h2, rfl, hx⟩
    · rw [show (q :: rest : List (String × List Market)) = (q.1, q.2) :: rest by simp,
        addToBuckets, if_neg he] at hp
      rcases List.mem_cons.mp hp with h1 | h2
      · subst h1
        exact Or.inl ⟨q, List.mem_cons_self q rest, rfl, hx⟩
      · rcases ih p h2 x hx with ⟨r, hr, h⟩ | h
        · exact Or.inl ⟨r, List.mem_cons_of_mem q hr, h⟩
        · exact Or.inr h

/-- Fold invariant of the bucket table: every market stored under a
key has that canonical key, and satisfies any property holding on the
input list. -/
theorem marketBuckets_inv (P : Market → Prop) :
    ∀ (l : List Market) (acc : List (String × List Market)),
      (∀ p ∈ acc, ∀ x ∈ p.2, marketKey x = p.1 ∧ P x) →
      (∀ m ∈ l, P m) →
      ∀ p ∈ l.foldl (fun acc m => addToBuckets acc (marketKey m) m) acc, ∀ x ∈ p.2,
        marketKey x = p.1 ∧ P x := by
  intro l
  induction l with
  | nil => intro acc hacc _ p hp x hx; exact hacc p hp x hx
  | cons m rest ih =>
    intro acc hacc hl p hp x hx
    refine ih (addToBuckets acc (marketKey m) m) ?_ (fun z hz => hl z (List.mem_cons_of_mem m hz)) p (by simpa using hp) x hx
    intro q hq y hy
    rcases addToBuckets_mem m (marketKey m) acc q hq y hy with ⟨r, hr, hre, hry⟩ | ⟨hym, hqk⟩
    · have := hacc r hr y hry
      exact ⟨hre ▸ this.1, this.2⟩
    · subst hym
      exact ⟨hqk ▸ rfl, hl y (List.mem_cons_self y rest)⟩

/-- Membership through the numeric insertion. -/
theorem mem_insertByNat (p q : String × List Market) :
    ∀ l, q ∈ insertByNat p l ↔ q = p ∨ q ∈ l := by
  intro l
  induction l with
  | nil => simp [insertByNat]
  | cons r rest ih =>
    by_cases h : digitsToNat r.1.data ≤ digitsToNat p.1.data
    · rw [insertByNat, if_pos h]
      simp only [List.mem_cons, ih]
      tauto
    · rw [insertByNat, if_neg h]
      simp only [List.mem_cons]

/-- Membership through the numeric sort. -/
theorem mem_sortByNat (l : List (String × List Market)) (q : String × List Market) :
    q ∈ sortByNat l ↔ q ∈ l := by
  induction l with
  | nil => simp [sortByNat]
  | cons r rest ih =>
    simp only [sortByNat, List.foldr_cons]
    rw [mem_insertByNat]
    simp only [sortByNat] at ih
    rw [ih]
    simp

/-- The entries enumeration only rearranges the buckets. -/
theorem mem_jsObjEntries (l : List (String × List Market)) (q : String × List Market) :
    q ∈ jsObjEntries l → q ∈ l := by
  intro h
  rcases List.mem_append.mp h with h1 | h2
  · exact (List.mem_filter.mp ((mem_sortByNat _ q).mp h1)).1
  · exact (List.mem_filter.mp h2).1

/-- The numeric insertion preserves ascending order. -/
theorem pairwise_insertByNat (p : String × List Market) (l : List (String × List Market))
    (h : List.Pairwise (fun a b => digitsToNat a.1.data ≤ digitsToNat b.1.data) l) :
    List.Pairwise (fun a b => digitsToNat a.1.data ≤ digitsToNat b.1.data) (insertByNat p l) := by
  induction l with
  | nil => simp [insertByNat]
  | cons r rest ih =>
    rcases List.pairwise_cons.mp h with ⟨hr, hrest⟩
    by_cases hc : digitsToNat r.1.data ≤ digitsToNat p.1.data
    · rw [insertByNat, if_pos hc]
      refine List.pairwise_cons.mpr ⟨?_, ih hrest⟩
      intro b hb
      rcases (mem_insertByNat p b rest).mp hb with rfl | hbr
      · exact hc
      · exact hr b hbr
    · rw [insertByNat, if_neg hc]
      have hpr : digitsToNat p.1.data ≤ digitsToNat r.1.data := le_of_not_le hc
      refine List.pairwise_cons.mpr ⟨?_, h⟩
      intro b hb
      rcases List.mem_cons.mp hb with rfl | hbr
      · exact hpr
      · exact le_trans hpr (hr b hbr)

/-- The numeric sort produces ascending key order. -/
theorem sortByNat_sorted (l : List (String × List Market)) :
    List.Pairwise (fun a b => digitsToNat a.1.data ≤ digitsToNat b.1.data) (sortByNat l) := by
  induction l with
  | nil => simp [sortByNat]
  | cons r rest ih => exact pairwise_insertByNat r _ ih

/-- The ordering relation of `jsObjEntries` holds vacuously on a run
of non-array-index keys. -/
theorem pairwise_vacuous_nonidx (l : List (String × List Market))
    (h : ∀ b ∈ l, isArrayIndexKey b.1 = false) :
    List.Pairwise (fun a b => isArrayIndexKey b.1 = true →
      (isArrayIndexKey a.1 = true ∧ digitsToNat a.1.data ≤ digitsToNat b.1.data)) l := by
  induction l with
  | nil => constructor
  | cons r rest ih =>
    constructor
    · intro b hb hq
      rw [h b (List.mem_cons_of_mem r hb)] at hq
      cases hq
    · exact ih (fun b hb => h b (List.mem_cons_of_mem r hb))

/-- In `Object.entries` order, every entry following an array-index
key is itself preceded only by array-index keys in ascending numeric
order. -/
theorem jsObjEntries_pairwise (l : List (String × List Market)) :
    List.Pairwise (fun a b => isArrayIndexKey b.1 = true →
      (isArrayIndexKey a.1 = true ∧ digitsToNat a.1.data ≤ digitsToNat b.1.data))
      (jsObjEntries l) := by
  unfold jsObjEntries
  rw [List.pairwise_append]
  refine ⟨?_, ?_, ?_⟩
  · have hall : ∀ q ∈ sortByNat (l.filter fun p => isArrayIndexKey p.1),
        isArrayIndexKey q.1 = true := by
      intro q hq
      exact (List.mem_filter.mp ((mem_sortByNat _ q).mp hq)).2
    exact (sortByNat_sorted _).imp_of_mem (fun ha _ hle => fun _ => ⟨hall _ ha, hle⟩)
  · refine pairwise_vacuous_nonidx _ ?_
    intro b hb
    simpa using (List.mem_filter.mp hb).2
  · intro a ha b hb hq
    have hfb : isArrayIndexKey b.1 = false := by
      simpa using (List.mem_filter.mp hb).2
    rw [hfb] at hq
    cases hq

/-- Modelled from the claim's words (C5): buckets by canonical key in
first-seen order, keeping only the groups with 2 or more members. -/
def specGroupsFirstSeen (ms : List Market) : List EventGroup :=
  ((marketBuckets ms).filter (fun p => 1 < p.2.length)).map (fun p => ⟨p.1, p.2⟩)

/-- Removing the array-index-keyed entries from the `Object.entries`
enumeration leaves exactly the insertion-ordered non-index
entries. -/
theorem filter_nonidx_jsObjEntries (B : List (String × List Market)) :
    (jsObjEntries B).filter (fun p => !(isArrayIndexKey p.1)) =
    B.filter (fun p => !(isArrayIndexKey p.1)) := by
  unfold jsObjEntries
  rw [List.filter_append]
  have h1 : (sortByNat (B.filter fun p => isArrayIndexKey p.1)).filter
      (fun p => !(isArrayIndexKey p.1)) = [] := by
    rw [List.filter_eq_nil_iff]
    intro a ha
    have hid := (List.mem_filter.mp ((mem_sortByNat _ a).mp ha)).2
    simp [hid]
  have h2 : (B.filter fun p => !(isArrayIndexKey p.1)).filter
      (fun p => !(isArrayIndexKey p.1)) = B.filter fun p => !(isArrayIndexKey p.1) := by
    rw [List.filter_filter]
    apply List.filter_congr
    intro a _
    cases isArrayIndexKey a.1 <;> rfl
  rw [h1, h2, List.nil_append]

/-- C5 (amended): `findRelatedMarkets` buckets markets by canonical
key — every member of a returned group is an input market whose
canonical question key is the group's event — and returns only
groups with at least 2 members, never fewer; the groups appear in JS
object key order: the array-index-like keys first in ascending
numeric order (the `Pairwise` conjunct), and the remaining groups in
first-seen order — restricted to non-index keys the output coincides
with the claim's first-seen bucketing `specGroupsFirstSeen`. -/
theorem claim5_group_min_size :
    (∀ ms : List Market, ∀ g ∈ findRelatedMarkets ms,
      2 ≤ g.markets.length ∧ ∀ m ∈ g.markets, m ∈ ms ∧ marketKey m = g.event) ∧
    (∀ ms : List Market, List.Pairwise
      (fun g1 g2 => isArrayIndexKey g2.event = true →
        (isArrayIndexKey g1.event = true ∧
          digitsToNat g1.event.data ≤ digitsToNat g2.event.data))
      (findRelatedMarkets ms)) ∧
    (∀ ms : List Market,
      (findRelatedMarkets ms).filter (fun g => !(isArrayIndexKey g.event)) =
      (specGroupsFirstSeen ms).filter (fun g => !(isArrayIndexKey g.event))) := by
  refine ⟨?_, ?_, ?_⟩
  · intro ms g hg
    obtain ⟨p, hpf, rfl⟩ := List.mem_map.mp hg
    obtain ⟨hpe, hplen⟩ := List.mem_filter.mp hpf
    have hlen : 2 ≤ p.2.length := by
      have : 1 < p.2.length := by simpa using hplen
      omega
    have hinv := marketBuckets_inv (fun x => x ∈ ms) ms []
      (by intro q hq; simp at hq) (fun m hm => hm) p (mem_jsObjEntries _ p hpe)
    exact ⟨hlen, fun m hm => ⟨(hinv m hm).2, (hinv m hm).1⟩⟩
  · intro ms
    unfold findRelatedMarkets
    rw [List.pairwise_map]
    exact (jsObjEntries_pairwise (marketBuckets ms)).filter _
  · intro ms
    unfold findRelatedMarkets specGroupsFirstSeen
    rw [List.filter_map, List.filter_map]
    congr 1
    rw [show ((fun g : EventGroup => !(isArrayIndexKey g.event)) ∘
        (fun p : String × List Market => (⟨p.1, p.2⟩ : EventGroup))) =
        fun p => !(isArrayIndexKey p.1) from rfl]
    conv_lhs => rw [List.filter_comm]
    conv_rhs => rw [List.filter_comm]
    congr 1
    exact filter_nonidx_jsObjEntries (marketBuckets ms)

/-- The market list of the C5 counterexample: a text-keyed pair seen
first, then a pair whose canonical key is the numeral 2026. -/
def msCounter5 : List Market :=
  [{ question := some "zebra event" }, { question := some "zebra event" },
   { question := some "2026" }, { question := some "2026" }]

/-- C5 counterexample: the claim's first-seen bucket order puts the
"zebra event" group before the "2026" group, but `Object.entries`
enumerates the array-index-like key "2026" first, so the source
returns the groups in the opposite order. -/
theorem claim5_counterexample :
    (findRelatedMarkets msCounter5).map (fun g => g.event) = ["2026", "zebra event"] ∧
    (specGroupsFirstSeen msCounter5).map (fun g => g.event) = ["zebra event", "2026"] ∧
    findRelatedMarkets msCounter5 ≠ specGroupsFirstSeen msCounter5 := by
  with_unfolding_all decide

/-- The market list of the C5 witness. -/
def msWit5 : List Market :=
  [{ question := some "alpha beta" }, { question := some "alpha beta" }]

/-- The group returned on `msWit5`. -/
def gWit5 : EventGroup := ⟨"alpha beta", msWit5⟩

/-- C5 witness: the amended claim applied to a concrete two-market
list. -/
theorem claim5_group_min_size_witness :
    gWit5 ∈ findRelatedMarkets msWit5 ∧ 2 ≤ gWit5.markets.length ∧
    (∀ m ∈ gWit5.markets, m ∈ msWit5 ∧ marketKey m = gWit5.event) := by
  have hg : gWit5 ∈ findRelatedMarkets msWit5 := by with_unfolding_all decide
  have h := claim5_group_min_size.1 msWit5 gWit5 hg
  exact ⟨hg, h.1, h.2⟩

/-- Membership through the descending insertion. -/
theorem mem_insDesc (o p : Opportunity) (l : List Opportunity) :
    p ∈ insDesc o l ↔ p = o ∨ p ∈ l := by
  induction l with
  | nil => simp [insDesc]
  | cons x xs ih =>
    by_cases h : edgeKey o < edgeKey x
    · rw [insDesc, if_pos h]
      simp only [List.mem_cons, ih]
      tauto
    · rw [insDesc, if_neg h]
      simp only [List.mem_cons]

/-- The sort only rearranges the opportunities. -/
theorem mem_sortByEdgeDesc (l : List Opportunity) (p : Opportunity) :
    p ∈ sortByEdgeDesc l ↔ p ∈ l := by
  induction l with
  | nil => simp [sortByEdgeDesc]
  | cons x xs ih =>
    simp only [sortByEdgeDesc, List.foldr_cons] at ih ⊢
    rw [mem_insDesc, ih]
    simp

/-- The descending insertion preserves descending order. -/
theorem pairwise_insDesc (o : Opportunity) (l : List Opportunity)
    (h : List.Pairwise (fun a b => edgeKey b ≤ edgeKey a) l) :
    List.Pairwise (fun a b => edgeKey b ≤ edgeKey a) (insDesc o l) := by
  induction l with
  | nil => simp [insDesc]
  | cons x xs ih =>
    rcases List.pairwise_cons.mp h with ⟨hx, hxs⟩
    by_cases hc : edgeKey o < edgeKey x
    · rw [insDesc, if_pos hc]
      refine List.pairwise_cons.mpr ⟨?_, ih hxs⟩
      intro b hb
      rcases (mem_insDesc o b xs).mp hb with rfl | hbx
      · exact le_of_lt hc
      · exact hx b hbx
    · rw [insDesc, if_neg hc]
      refine List.pairwise_cons.mpr ⟨?_, h⟩
      intro b hb
      rcases List.mem_cons.mp hb with rfl | hbx
      · exact le_of_not_lt hc
      · exact le_trans (hx b hbx) (le_of_not_lt hc)

/-- The final sort produces non-increasing edges. -/
theorem sortByEdgeDesc_sorted (l : List Opportunity) :
    List.Pairwise (fun a b => edgeKey b ≤ edgeKey a) (sortByEdgeDesc l) := by
  induction l with
  | nil => simp [sortByEdgeDesc]
  | cons x xs ih => exact pairwise_insDesc x _ ih

/-- A basic opportunity is only returned when its edge fails the
`edge <= 0` test. -/
theorem detectBasicArb_edge_pos (m : Market) (o : Opportunity)
    (h : detectBasicArb m = some o) : jsLeB o.edge (some 0) = false := by
  by_cases hc : jsLeB (jsSub (some 1) (jsAdd (basicYes m) (basicNo m))) (some 0) = true
  · simp [detectBasicArb, hc] at h
  · simp [detectBasicArb, hc] at h
    subst h
    simpa using hc

/-- A correlated opportunity is only returned when its edge fails
the `edge <= 0` test. -/
theorem detectCorrelatedArb_edge_pos (g : EventGroup) (o : Opportunity)
    (h : detectCorrelatedArb g = some o) : jsLeB o.edge (some 0) = false := by
  by_cases hlt : g.markets.length < 2
  · simp [detectCorrelatedArb, hlt] at h
  · by_cases hc : jsLeB (corrEdge g) (some 0) = true
    · simp [detectCorrelatedArb, hlt, corrEdge, corrCost] at hc h
      simp [hc] at h
    · simp only [Bool.not_eq_true] at hc
      simp [detectCorrelatedArb, hlt, corrEdge, corrCost, hc] at h
      obtain ⟨-, rfl⟩ := h
      simp [corrEdge, corrCost] at hc
      simpa using hc

/-- A mutually-exclusive opportunity is only returned when its edge
fails the `edge <= 0` test. -/
theorem detectMutuallyExclusiveArb_edge_pos (m : Market) (o : Opportunity)
    (h : detectMutuallyExclusiveArb m = some o) : jsLeB o.edge (some 0) = false := by
  by_cases hl : jsLtB (JSVal.lenQ (JSVal.jsOr m.outcomes (.arr []))) (some 3) = true
  · simp [detectMutuallyExclusiveArb, hl] at h
  · cases hps : mePriceList m with
    | none => simp [detectMutuallyExclusiveArb, hl, hps] at h
    | some ps =>
      by_cases hlen : JSVal.lenQ (JSVal.jsOr m.outcomes (.arr [])) = some (ps.length : ℚ)
      · by_cases hc : jsLeB (jsSub (some 1) (ps.foldl jsAdd (some 0))) (some 0) = true
        · simp [detectMutuallyExclusiveArb, hl, hps, hlen, hc] at h
        · simp [detectMutuallyExclusiveArb, hl, hps, hlen, hc] at h
          obtain ⟨-, rfl⟩ := h
          simpa using hc
      · simp [detectMutuallyExclusiveArb, hl, hps, hlen] at h

/-- Every opportunity surviving one of the three `edge >= MIN_EDGE`
collection passes meets the threshold. -/
theorem mem_thresholdPass {α : Type} (f : α → Option Opportunity) (l : List α) (o : Opportunity)
    (h : o ∈ l.filterMap fun x =>
      match f x with
      | some o' => if jsGeB o'.edge (some MIN_EDGE) then some o' else none
      | none => none) :
    jsGeB o.edge (some MIN_EDGE) = true := by
  obtain ⟨x, _, heq⟩ := List.mem_filterMap.mp h
  cases hf : f x with
  | none => rw [hf] at heq; simp at heq
  | some o' =>
    rw [hf] at heq
    by_cases hc : jsGeB o'.edge (some MIN_EDGE) = true
    · simp only [hc, if_true] at heq
      cases heq
      exact hc
    · simp [hc] at heq

/-- C8 (amended): the detectors themselves gate only on the failure
of the `edge <= 0` test — equal to edge > 0 for a genuine numeric
edge, but a NaN edge also passes — with no threshold; minimum-edge
filtering and descending-edge sorting are applied by the `scan`
caller, so every opportunity in the pipeline's output has edge at
least `MIN_EDGE` (a comparison that discards NaN edges) and the
output is sorted by non-increasing edge. -/
theorem claim8_scan_pipeline :
    (∀ ms : List Market, ∀ o ∈ scan ms, jsGeB o.edge (some MIN_EDGE) = true) ∧
    (∀ ms : List Market, List.Pairwise (fun a b => edgeKey b ≤ edgeKey a) (scan ms)) ∧
    (∀ (m : Market) (o : Opportunity), detectBasicArb m = some o →
      jsLeB o.edge (some 0) = false) ∧
    (∀ (g : EventGroup) (o : Opportunity), detectCorrelatedArb g = some o →
      jsLeB o.edge (some 0) = false) ∧
    (∀ (m : Market) (o : Opportunity), detectMutuallyExclusiveArb m = some o →
      jsLeB o.edge (some 0) = false) := by
  refine ⟨?_, ?_, detectBasicArb_edge_pos, detectCorrelatedArb_edge_pos,
    detectMutuallyExclusiveArb_edge_pos⟩
  · intro ms o ho
    rw [scan, mem_sortByEdgeDesc] at ho
    rcases List.mem_append.mp ho with h12 | h3
    · rcases List.mem_append.mp h12 with h1 | h2
      · exact mem_thresholdPass detectBasicArb ms o (by rw [scanBasic] at h1; exact h1)
      · exact mem_thresholdPass detectCorrelatedArb (findRelatedMarkets ms) o
          (by rw [scanCorrelated] at h2; exact h2)
    · exact mem_thresholdPass detectMutuallyExclusiveArb
        (ms.filter (fun m => 2 < outcomesLenOrZero m)) o (by rw [scanME] at h3; exact h3)
  · intro ms
    rw [scan]
    exact sortByEdgeDesc_sorted _

/-- The market of the C8 witness. -/
def mWit8 : Market := { outcomePrices := .arr [.str "0.4", .str "0.5"] }

/-- The market list of the C8 witness. -/
def msWit8 : List Market := [mWit8]

/-- The opportunity produced on `mWit8`. -/
def oWit8 : Opportunity :=
  { type := "BASIC_ARB"
    name := "Unknown Market"
    edge := some (1/10)
    cost := some (9/10)
    payout := some 1
    prices := [some (2/5), some (1/2)]
    marketCount := 1
    totalVolume := some 0
    markets := [mWit8] }

/-- C8 witness: the pipeline statement applied to a concrete one
market scan. -/
theorem claim8_scan_pipeline_witness :
    oWit8 ∈ scan msWit8 ∧ jsGeB oWit8.edge (some MIN_EDGE) = true ∧
    detectBasicArb mWit8 = some oWit8 ∧ jsLeB oWit8.edge (some 0) = false := by
  have hmem : oWit8 ∈ scan msWit8 := by with_unfolding_all decide
  have hdet : detectBasicArb mWit8 = some oWit8 := by with_unfolding_all decide
  exact ⟨hmem, claim8_scan_pipeline.1 msWit8 oWit8 hmem, hdet,
    claim8_scan_pipeline.2.2.1 mWit8 oWit8 hdet⟩

/-- The market of the C8 counterexample: its first price is present
but unparseable, so the basic rule's edge is NaN. -/
def mCounter8 : Market := { outcomePrices := .arr [.str "xyz", .str "0.3"] }

/-- The opportunity the basic detector returns on `mCounter8`. -/
def oCounter8 : Opportunity :=
  { type := "BASIC_ARB"
    name := "Unknown Market"
    edge := none
    cost := none
    payout := some 1
    prices := [none, some (3/10)]
    marketCount := 1
    totalVolume := some 0
    markets := [mCounter8] }

/-- C8 counterexample: the claim's "the detectors themselves gate
only on edge > 0" fails at a NaN edge: on a market whose first price
is a present but unparseable string the basic detector returns an
opportunity although its edge is not greater than 0 — the actual
gate is the failure of `edge <= 0`, and at NaN both comparisons are
false. -/
theorem claim8_counterexample :
    detectBasicArb mCounter8 = some oCounter8 ∧
    jsGtB oCounter8.edge (some 0) = false := by
  with_unfolding_all decide

/-- Two markets that agree on every field the detectors read except
the `volume`/`volumeNum` fields. -/
def volEquivB (a b : Market) : Bool :=
  a.question = b.question && a.title = b.title && a.id = b.id &&
  a.outcomes = b.outcomes && a.outcomePrices = b.outcomePrices &&
  a.yes_price = b.yes_price && a.no_price = b.no_price

/-- Pointwise volume-equivalence of market lists. -/
def volEquivListB : List Market → List Market → Bool
  | [], [] => true
  | a :: as_, b :: bs => volEquivB a b && volEquivListB as_ bs
  | _, _ => false

/-- The detection-relevant view of an opportunity: everything except
the reported aggregate volume, the embedded market records and the
display strategy. -/
def sigView (o : Opportunity) :
    String × String × Option ℚ × Option ℚ × Option ℚ × List (Option ℚ) × ℕ :=
  (o.type, o.name, o.edge, o.cost, o.payout, o.prices, o.marketCount)

/-- Unpacking of volume-equivalence. -/
theorem volEquivB_fields (a b : Market) (h : volEquivB a b = true) :
    a.question = b.question ∧ a.title = b.title ∧ a.id = b.id ∧
    a.outcomes = b.outcomes ∧ a.outcomePrices = b.outcomePrices ∧
    a.yes_price = b.yes_price ∧ a.no_price = b.no_price := by
  simp [volEquivB] at h
  tauto

/-- The basic yes price ignores volume. -/
theorem basicYes_congr (a b : Market) (h : volEquivB a b = true) : basicYes a = basicYes b := by
  obtain ⟨-, -, -, -, hp, hy, -⟩ := volEquivB_fields a b h
  unfold basicYes
  rw [hp, hy]

/-- The basic no price ignores volume. -/
theorem basicNo_congr (a b : Market) (h : volEquivB a b = true) : basicNo a = basicNo b := by
  obtain ⟨-, -, -, -, hp, -, hn⟩ := volEquivB_fields a b h
  unfold basicNo
  rw [hp, hn]

/-- The display name ignores volume. -/
theorem marketName_congr (a b : Market) (h : volEquivB a b = true) :
    marketName a = marketName b := by
  obtain ⟨hq, ht, -⟩ := volEquivB_fields a b h
  unfold marketName
  rw [hq, ht]

/-- The canonical key ignores volume. -/
theorem marketKey_congr (a b : Market) (h : volEquivB a b = true) :
    marketKey a = marketKey b := by
  obtain ⟨hq, -⟩ := volEquivB_fields a b h
  unfold marketKey
  rw [hq]

/-- The basic rule detects the same signal with the same numbers on
volume-equivalent markets. -/
theorem detectBasicArb_congr (a b : Market) (h : volEquivB a b = true) :
    (detectBasicArb a).map sigView = (detectBasicArb b).map sigView := by
  have hy := basicYes_congr a b h
  have hn := basicNo_congr a b h
  have hnm := marketName_congr a b h
  by_cases hc : jsLeB (jsSub (some 1) (jsAdd (basicYes a) (basicNo a))) (some 0) = true
  · have hc' : jsLeB (jsSub (some 1) (jsAdd (basicYes b) (basicNo b))) (some 0) = true := by
      rw [← hy, ← hn]; exact hc
    simp [detectBasicArb, hc, hc']
  · have hc' : ¬ jsLeB (jsSub (some 1) (jsAdd (basicYes b) (basicNo b))) (some 0) = true := by
      rw [← hy, ← hn]; exact hc
    simp [detectBasicArb, hc, hc', sigView, hy, hn, hnm]

/-- The mutually-exclusive rule detects the same signal with the
same numbers on volume-equivalent markets. -/
theorem detectMutuallyExclusiveArb_congr (a b : Market) (h : volEquivB a b = true) :
    (detectMutuallyExclusiveArb a).map sigView = (detectMutuallyExclusiveArb b).map sigView := by
  obtain ⟨-, -, -, ho, hp, -, -⟩ := volEquivB_fields a b h
  have hnm := marketName_congr a b h
  have hps : mePriceList a = mePriceList b := by unfold mePriceList; rw [hp]
  by_cases hl : jsLtB (JSVal.lenQ (JSVal.jsOr a.outcomes (.arr []))) (some 3) = true
  · have hl' : jsLtB (JSVal.lenQ (JSVal.jsOr b.outcomes (.arr []))) (some 3) = true := by
      rw [← ho]; exact hl
    simp [detectMutuallyExclusiveArb, hl, hl']
  · have hl' : ¬ jsLtB (JSVal.lenQ (JSVal.jsOr b.outcomes (.arr []))) (some 3) = true := by
      rw [← ho]; exact hl
    cases hpsa : mePriceList a with
    | none =>
      have hpsb : mePriceList b = none := hps ▸ hpsa
      simp [detectMutuallyExclusiveArb, hl, hl', hpsa, hpsb]
    | some ps =>
      have hpsb : mePriceList b = some ps := hps ▸ hpsa
      by_cases hlen : JSVal.lenQ (JSVal.jsOr a.outcomes (.arr [])) = some (ps.length : ℚ)
      · have hlen' : JSVal.lenQ (JSVal.jsOr b.outcomes (.arr [])) = some (ps.length : ℚ) := by
          rw [← ho]; exact hlen
        have hl2 : ¬ jsLtB (some (ps.length : ℚ)) (some 3) = true := by
          rw [← hlen]; exact hl
        by_cases hc : jsLeB (jsSub (some 1) (ps.foldl jsAdd (some 0))) (some 0) = true
        · simp [detectMutuallyExclusiveArb, hl, hl', hpsa, hpsb, hlen, hlen', hc, hl2]
        · simp [detectMutuallyExclusiveArb, hl, hl', hpsa, hpsb, hlen, hlen', hc, sigView, hnm, hl2]
      · have hlen' : ¬ JSVal.lenQ (JSVal.jsOr b.outcomes (.arr [])) = some (ps.length : ℚ) := by
          rw [← ho]; exact hlen
        simp [detectMutuallyExclusiveArb, hl, hl', hpsa, hpsb, hlen, hlen']

/-- Volume-equivalent lists have equal length. -/
theorem volEquivListB_length :
    ∀ l1 l2, volEquivListB l1 l2 = true → l1.length = l2.length := by
  intro l1
  induction l1 with
  | nil => intro l2 h; cases l2 with
    | nil => rfl
    | cons b bs => simp [volEquivListB] at h
  | cons a as_ ih =>
    intro l2 h
    cases l2 with
    | nil => simp [volEquivListB] at h
    | cons b bs =>
      simp only [volEquivListB, Bool.and_eq_true] at h
      simp [ih bs h.2]

/-- The lose-price sequence ignores volume. -/
theorem losePrice_map_congr :
    ∀ l1 l2, volEquivListB l1 l2 = true → l1.map losePrice = l2.map losePrice := by
  intro l1
  induction l1 with
  | nil => intro l2 h; cases l2 with
    | nil => rfl
    | cons b bs => simp [volEquivListB] at h
  | cons a as_ ih =>
    intro l2 h
    cases l2 with
    | nil => simp [volEquivListB] at h
    | cons b bs =>
      simp only [volEquivListB, Bool.and_eq_true] at h
      have : losePrice a = losePrice b := basicNo_congr a b h.1
      simp [this, ih bs h.2]

/-- The correlated rule detects the same signal with the same
numbers on groups with equal events and volume-equivalent members. -/
theorem detectCorrelatedArb_congr (g1 g2 : EventGroup) (he : g1.event = g2.event)
    (hm : volEquivListB g1.markets g2.markets = true) :
    (detectCorrelatedArb g1).map sigView = (detectCorrelatedArb g2).map sigView := by
  have hlen := volEquivListB_length _ _ hm
  have hmap := losePrice_map_congr _ _ hm
  by_cases hlt : g1.markets.length < 2
  · have hlt' : g2.markets.length < 2 := hlen ▸ hlt
    simp [detectCorrelatedArb, hlt, hlt']
  · have hlt' : ¬ g2.markets.length < 2 := hlen ▸ hlt
    have hkey : corrEdge g2 = corrEdge g1 := by
      rw [corrEdge, corrEdge, corrCost, corrCost, ← hmap, ← hlen]
    by_cases hc : jsLeB (corrEdge g1) (some 0) = true
    · have hc' : jsLeB (corrEdge g2) (some 0) = true := by rw [hkey]; exact hc
      rw [corrEdge, corrCost] at hc hc'
      simp [detectCorrelatedArb, hlt, hlt', hc, hc']
    · have hc' : ¬ jsLeB (corrEdge g2) (some 0) = true := by rw [hkey]; exact hc
      rw [corrEdge, corrCost] at hc hc'
      simp [detectCorrelatedArb, hlt, hlt', hc, hc', sigView, he, hmap, hlen]

/-- Bucket equivalence: equal key, volume-equivalent members. -/
def pairEquivB (p q : String × List Market) : Bool :=
  p.1 = q.1 && volEquivListB p.2 q.2

/-- Pointwise bucket-table equivalence. -/
def bucketsEquivB : List (String × List Market) → List (String × List Market) → Bool
  | [], [] => true
  | p :: ps, q :: qs => pairEquivB p q && bucketsEquivB ps qs
  | _, _ => false

/-- Appending volume-equivalent markets preserves equivalence. -/
theorem volEquivListB_append (m1 m2 : Market) (hm : volEquivB m1 m2 = true) :
    ∀ l1 l2, volEquivListB l1 l2 = true →
      volEquivListB (l1 ++ [m1]) (l2 ++ [m2]) = true := by
  intro l1
  induction l1 with
  | nil => intro l2 h; cases l2 with
    | nil => simp [volEquivListB, hm]
    | cons b bs => simp [volEquivListB] at h
  | cons a as_ ih =>
    intro l2 h
    cases l2 with
    | nil => simp [volEquivListB] at h
    | cons b bs =>
      simp only [volEquivListB, Bool.and_eq_true] at h
      simp only [List.cons_append, volEquivListB, Bool.and_eq_true]
      exact ⟨h.1, ih bs h.2⟩

/-- Bucket insertion preserves table equivalence. -/
theorem addToBuckets_congr (k : String) (m1 m2 : Market) (hm : volEquivB m1 m2 = true) :
    ∀ acc1 acc2, bucketsEquivB acc1 acc2 = true →
      bucketsEquivB (addToBuckets acc1 k m1) (addToBuckets acc2 k m2) = true := by
  intro acc1
  induction acc1 with
  | nil => intro acc2 h; cases acc2 with
    | nil => simp [addToBuckets, bucketsEquivB, pairEquivB, volEquivListB, hm]
    | cons q qs => simp [bucketsEquivB] at h
  | cons p ps ih =>
    intro acc2 h
    cases acc2 with
    | nil => simp [bucketsEquivB] at h
    | cons q qs =>
      simp only [bucketsEquivB, Bool.and_eq_true] at h
      obtain ⟨hpq, hrest⟩ := h
      simp only [pairEquivB, Bool.and_eq_true, decide_eq_true_eq] at hpq
      obtain ⟨hk, hl⟩ := hpq
      obtain ⟨k1, g1⟩ := p
      obtain ⟨k2, g2⟩ := q
      simp only at hk hl
      subst hk
      by_cases he : k1 = k
      · rw [addToBuckets, if_pos he, addToBuckets, if_pos he]
        simp only [bucketsEquivB, Bool.and_eq_true, pairEquivB, decide_eq_true_eq]
        exact ⟨⟨trivial, volEquivListB_append m1 m2 hm g1 g2 hl⟩, hrest⟩
      · rw [addToBuckets, if_neg he, addToBuckets, if_neg he]
        simp only [bucketsEquivB, Bool.and_eq_true, pairEquivB, decide_eq_true_eq]
        exact ⟨⟨trivial, hl⟩, ih qs hrest⟩

/-- The bucket fold preserves table equivalence. -/
theorem marketBuckets_congr :
    ∀ ms1 ms2, volEquivListB ms1 ms2 = true →
      ∀ acc1 acc2, bucketsEquivB acc1 acc2 = true →
      bucketsEquivB
        (ms1.foldl (fun acc m => addToBuckets acc (marketKey m) m) acc1)
        (ms2.foldl (fun acc m => addToBuckets acc (marketKey m) m) acc2) = true := by
  intro ms1
  induction ms1 with
  | nil => intro ms2 h acc1 acc2 hacc; cases ms2 with
    | nil => exact hacc
    | cons b bs => simp [volEquivListB] at h
  | cons a as_ ih =>
    intro ms2 h acc1 acc2 hacc
    cases ms2 with
    | nil => simp [volEquivListB] at h
    | cons b bs =>
      simp only [volEquivListB, Bool.and_eq_true] at h
      simp only [List.foldl_cons]
      have hkey := marketKey_congr a b h.1
      rw [hkey]
      exact ih bs h.2 _ _ (addToBuckets_congr (marketKey b) a b h.1 acc1 acc2 hacc)

/-- The numeric insertion takes the same branches on equivalent
tables. -/
theorem insertByNat_congr (p q : String × List Market)
    (hpq : pairEquivB p q = true) :
    ∀ l1 l2, bucketsEquivB l1 l2 = true →
      bucketsEquivB (insertByNat p l1) (insertByNat q l2) = true := by
  have hk : p.1 = q.1 := by
    simp only [pairEquivB, Bool.and_eq_true, decide_eq_true_eq] at hpq
    exact hpq.1
  intro l1
  induction l1 with
  | nil => intro l2 h; cases l2 with
    | nil => simpa [insertByNat, bucketsEquivB] using hpq
    | cons b bs => simp [bucketsEquivB] at h
  | cons r rs ih =>
    intro l2 h
    cases l2 with
    | nil => simp [bucketsEquivB] at h
    | cons t ts =>
      simp only [bucketsEquivB, Bool.and_eq_true] at h
      obtain ⟨hrt, hrest⟩ := h
      have hrk : r.1 = t.1 := by
        simp only [pairEquivB, Bool.and_eq_true, decide_eq_true_eq] at hrt
        exact hrt.1
      by_cases hc : digitsToNat r.1.data ≤ digitsToNat p.1.data
      · rw [insertByNat, if_pos hc, insertByNat, if_pos (by rw [← hrk, ← hk]; exact hc)]
        simp only [bucketsEquivB, Bool.and_eq_true]
        exact ⟨hrt, ih ts hrest⟩
      · rw [insertByNat, if_neg hc, insertByNat, if_neg (by rw [← hrk, ← hk]; exact hc)]
        simp only [bucketsEquivB, Bool.and_eq_true]
        exact ⟨hpq, hrt, hrest⟩

/-- The numeric sort preserves table equivalence. -/
theorem sortByNat_congr :
    ∀ l1 l2, bucketsEquivB l1 l2 = true →
      bucketsEquivB (sortByNat l1) (sortByNat l2) = true := by
  intro l1
  induction l1 with
  | nil => intro l2 h; cases l2 with
    | nil => exact h
    | cons b bs => simp [bucketsEquivB] at h
  | cons r rs ih =>
    intro l2 h
    cases l2 with
    | nil => simp [bucketsEquivB] at h
    | cons t ts =>
      simp only [bucketsEquivB, Bool.and_eq_true] at h
      simp only [sortByNat, List.foldr_cons]
      exact insertByNat_congr r t h.1 _ _ (ih ts h.2)

/-- The array-index filter preserves table equivalence. -/
theorem filterIdx_congr :
    ∀ l1 l2, bucketsEquivB l1 l2 = true →
      bucketsEquivB (l1.filter (fun p => isArrayIndexKey p.1))
        (l2.filter (fun p => isArrayIndexKey p.1)) = true := by
  intro l1
  induction l1 with
  | nil => intro l2 h; cases l2 with
    | nil => exact h
    | cons b bs => simp [bucketsEquivB] at h
  | cons r rs ih =>
    intro l2 h
    cases l2 with
    | nil => simp [bucketsEquivB] at h
    | cons t ts =>
      simp only [bucketsEquivB, Bool.and_eq_true] at h
      have hrk : r.1 = t.1 := by
        simp only [pairEquivB, Bool.and_eq_true, decide_eq_true_eq] at h
        exact h.1.1
      simp only [List.filter_cons]
      by_cases hc : isArrayIndexKey r.1 = true
      · rw [if_pos hc, if_pos (by rw [← hrk]; exact hc)]
        simp only [bucketsEquivB, Bool.and_eq_true]
        exact ⟨h.1, ih ts h.2⟩
      · rw [if_neg hc, if_neg (by rw [← hrk]; exact hc)]
        exact ih ts h.2

/-- The complement filter preserves table equivalence. -/
theorem filterNonIdx_congr :
    ∀ l1 l2, bucketsEquivB l1 l2 = true →
      bucketsEquivB (l1.filter (fun p => !(isArrayIndexKey p.1)))
        (l2.filter (fun p => !(isArrayIndexKey p.1))) = true := by
  intro l1
  induction l1 with
  | nil => intro l2 h; cases l2 with
    | nil => exact h
    | cons b bs => simp [bucketsEquivB] at h
  | cons r rs ih =>
    intro l2 h
    cases l2 with
    | nil => simp [bucketsEquivB] at h
    | cons t ts =>
      simp only [bucketsEquivB, Bool.and_eq_true] at h
      have hrk : r.1 = t.1 := by
        simp only [pairEquivB, Bool.and_eq_true, decide_eq_true_eq] at h
        exact h.1.1
      simp only [List.filter_cons]
      by_cases hc : isArrayIndexKey r.1 = true
      · rw [if_neg (by simp [hc]), if_neg (by simp [← hrk, hc])]
        exact ih ts h.2
      · rw [if_pos (by simpa using hc), if_pos (by rw [← hrk]; simpa using hc)]
        simp only [bucketsEquivB, Bool.and_eq_true]
        exact ⟨h.1, ih ts h.2⟩

/-- Concatenation preserves table equivalence. -/
theorem bucketsEquivB_append :
    ∀ l1 l2 r1 r2, bucketsEquivB l1 l2 = true → bucketsEquivB r1 r2 = true →
      bucketsEquivB (l1 ++ r1) (l2 ++ r2) = true := by
  intro l1
  induction l1 with
  | nil => intro l2 r1 r2 h hr; cases l2 with
    | nil => exact hr
    | cons b bs => simp [bucketsEquivB] at h
  | cons p ps ih =>
    intro l2 r1 r2 h hr
    cases l2 with
    | nil => simp [bucketsEquivB] at h
    | cons q qs =>
      simp only [bucketsEquivB, Bool.and_eq_true] at h
      simp only [List.cons_append, bucketsEquivB, Bool.and_eq_true]
      exact ⟨h.1, ih qs r1 r2 h.2 hr⟩

/-- The entries enumeration preserves table equivalence. -/
theorem jsObjEntries_congr (l1 l2 : List (String × List Market))
    (h : bucketsEquivB l1 l2 = true) :
    bucketsEquivB (jsObjEntries l1) (jsObjEntries l2) = true := by
  unfold jsObjEntries
  exact bucketsEquivB_append _ _ _ _
    (sortByNat_congr _ _ (filterIdx_congr _ _ h)) (filterNonIdx_congr _ _ h)

/-- Equivalent tables produce identical grouped correlated-detection
views. -/
theorem groups_view_congr :
    ∀ l1 l2, bucketsEquivB l1 l2 = true →
      ((l1.filter (fun p => 1 < p.2.length)).map (fun p => (⟨p.1, p.2⟩ : EventGroup))).map
        (fun g => (g.event, g.markets.length, (detectCorrelatedArb g).map sigView)) =
      ((l2.filter (fun p => 1 < p.2.length)).map (fun p => (⟨p.1, p.2⟩ : EventGroup))).map
        (fun g => (g.event, g.markets.length, (detectCorrelatedArb g).map sigView)) := by
  intro l1
  induction l1 with
  | nil => intro l2 h; cases l2 with
    | nil => rfl
    | cons b bs => simp [bucketsEquivB] at h
  | cons p ps ih =>
    intro l2 h
    cases l2 with
    | nil => simp [bucketsEquivB] at h
    | cons q qs =>
      simp only [bucketsEquivB, Bool.and_eq_true] at h
      obtain ⟨hpq, hrest⟩ := h
      have hk : p.1 = q.1 := by
        simp only [pairEquivB, Bool.and_eq_true, decide_eq_true_eq] at hpq
        exact hpq.1
      have hv : volEquivListB p.2 q.2 = true := by
        simp only [pairEquivB, Bool.and_eq_true, decide_eq_true_eq] at hpq
        exact hpq.2
      have hlen := volEquivListB_length _ _ hv
      simp only [List.filter_cons]
      by_cases hc : 1 < p.2.length
      · rw [if_pos (by simpa using hc), if_pos (by rw [← hlen]; simpa using hc)]
        simp only [List.map_cons]
        rw [ih qs hrest]
        congr 1
        show (p.1, p.2.length, Option.map sigView (detectCorrelatedArb ⟨p.1, p.2⟩)) =
          (q.1, q.2.length, Option.map sigView (detectCorrelatedArb ⟨q.1, q.2⟩))
        rw [detectCorrelatedArb_congr ⟨p.1, p.2⟩ ⟨q.1, q.2⟩ hk hv, hk, hlen]
      · rw [if_neg (by simpa using hc), if_neg (by rw [← hlen]; simpa using hc)]
        exact ih qs hrest

/-- C9: `MIN_VOLUME` is declared but gates nothing: for any two
markets (or market lists) that differ only in their volume fields the
three detectors produce the same signals with the same edges, costs,
payouts and prices — volume influences only the reported
aggregate-volume field of an opportunity, never whether or what is
detected. -/
theorem claim9_volume_never_gates :
    MIN_VOLUME = 10000 ∧
    (∀ a b : Market, volEquivB a b = true →
      (detectBasicArb a).map sigView = (detectBasicArb b).map sigView ∧
      (detectMutuallyExclusiveArb a).map sigView = (detectMutuallyExclusiveArb b).map sigView) ∧
    (∀ ms1 ms2 : List Market, volEquivListB ms1 ms2 = true →
      (findRelatedMarkets ms1).map
          (fun g => (g.event, g.markets.length, (detectCorrelatedArb g).map sigView)) =
        (findRelatedMarkets ms2).map
          (fun g => (g.event, g.markets.length, (detectCorrelatedArb g).map sigView))) := by
  refine ⟨rfl, fun a b h => ⟨detectBasicArb_congr a b h, detectMutuallyExclusiveArb_congr a b h⟩, ?_⟩
  intro ms1 ms2 h
  have hb := marketBuckets_congr ms1 ms2 h [] [] rfl
  have he := jsObjEntries_congr _ _ hb
  unfold findRelatedMarkets marketBuckets at *
  exact groups_view_congr _ _ he

/-- A market for the C9 witness, parametrized by its volume. -/
def mWit9 (vol : String) : Market :=
  { question := some "gamma event", outcomePrices := .arr [.str "0.2", .str "0.3"]
    volume := .str vol }

/-- C9 witness: two concrete market lists differing only in volume
produce identical detection views. -/
theorem claim9_volume_never_gates_witness :
    volEquivB (mWit9 "100") (mWit9 "999999") = true ∧
    volEquivListB [mWit9 "100", mWit9 "100"] [mWit9 "999999", mWit9 "999999"] = true ∧
    (detectBasicArb (mWit9 "100")).map sigView =
      (detectBasicArb (mWit9 "999999")).map sigView ∧
    (findRelatedMarkets [mWit9 "100", mWit9 "100"]).map
        (fun g => (g.event, g.markets.length, (detectCorrelatedArb g).map sigView)) =
      (findRelatedMarkets [mWit9 "999999", mWit9 "999999"]).map
        (fun g => (g.event, g.markets.length, (detectCorrelatedArb g).map sigView)) := by
  have h1 : volEquivB (mWit9 "100") (mWit9 "999999") = true := by decide
  have h2 : volEquivListB [mWit9 "100", mWit9 "100"]
      [mWit9 "999999", mWit9 "999999"] = true := by decide
  exact ⟨h1, h2, (claim9_volume_never_gates.2.1 _ _ h1).1,
    claim9_volume_never_gates.2.2 _ _ h2⟩

/-! ### C6: stability of canonical-key normalization over resolution months

The claim quantifies over every prefix `X`, so the proof cannot be a
computation.  The argument: every pattern used by the date-qualifier
rule starts and ends with non-space word material, so a match attempt
that begins inside `X` either fails on both inputs or consumes exactly
the same characters of `X` on both (it can read into the differing
tails only across the shared leading space, where the hypothesis that
no month/number token starts the tail stops it).  A strong induction
on the length of the unscanned prefix then shows the whole scan output
agrees, after which the remaining pipeline stages are congruences. -/


theorem length_dropWhile_le' (p : Char → Bool) (l : List Char) :
    (l.dropWhile p).length ≤ l.length := by
  induction l with
  | nil => simp
  | cons c cs ih =>
    rw [List.dropWhile_cons]
    split
    · simp only [List.length_cons]; omega
    · simp

theorem stripCI_length : ∀ (p s r : List Char), stripCI p s = some r →
    r.length + p.length = s.length := by
  intro p
  induction p with
  | nil => intro s r h; simp [stripCI] at h; simp [h]
  | cons pc ps ih =>
    intro s r h
    cases s with
    | nil => simp [stripCI] at h
    | cons c cs =>
      rw [stripCI] at h
      split at h
      · have := ih cs r h
        simp only [List.length_cons]
        omega
      · cases h

theorem spaces1_length : ∀ (s r : List Char), spaces1 s = some r → r.length < s.length := by
  intro s r h
  cases s with
  | nil => simp [spaces1] at h
  | cons c cs =>
    rw [spaces1] at h
    split at h
    · injection h with h
      subst h
      have := length_dropWhile_le' isSpaceChar cs
      simp only [List.length_cons]
      omega
    · cases h

theorem matchAlts_length : ∀ (pats : List (List Char)), (∀ p ∈ pats, p ≠ []) →
    ∀ (s r : List Char), matchAlts pats s = some r → r.length < s.length := by
  intro pats
  induction pats with
  | nil => intro _ s r h; simp [matchAlts] at h
  | cons p ps ih =>
    intro hne s r h
    rw [matchAlts] at h
    split at h
    · rename_i r' hst
      split at h
      · injection h with h
        subst h
        have hlen := stripCI_length p s r' hst
        have hp : p ≠ [] := hne p (List.mem_cons_self p ps)
        have : 0 < p.length := List.length_pos.mpr hp
        omega
      · exact ih (fun q hq => hne q (List.mem_cons_of_mem p hq)) s r h
    · exact ih (fun q hq => hne q (List.mem_cons_of_mem p hq)) s r h

theorem digFour_length : ∀ (c2 : Char) (r2 r : List Char), digFour c2 r2 = some r →
    r.length < r2.length := by
  intro c2 r2 r h
  match r2 with
  | [] => cases h
  | [c3] => cases h
  | c3 :: c4 :: r4 =>
    rw [digFour] at h
    split at h
    · injection h with h; subst h; simp only [List.length_cons]; omega
    · cases h

theorem digTok_length : ∀ (s r : List Char), digTok s = some r → r.length < s.length := by
  intro s r h
  match s with
  | [] => simp [digTok] at h
  | [c1] =>
    rw [digTok] at h
    split at h
    · injection h with h; subst h; simp
    · cases h
  | c1 :: c2 :: r2 =>
    rw [digTok] at h
    split at h
    · cases h
    · split at h
      · injection h with h; subst h; simp only [List.length_cons]; omega
      · split at h
        · injection h with h; subst h; simp only [List.length_cons]; omega
        · have := digFour_length c2 r2 r h
          simp only [List.length_cons]
          omega

theorem matchTok_length : ∀ (s r : List Char), matchTok s = some r → r.length < s.length := by
  intro s r h
  rw [matchTok] at h
  split at h
  · rename_i r' hm
    injection h with h
    subst h
    exact matchAlts_length monthList (by decide) s r' hm
  · exact digTok_length s r h

theorem tryPreps_length : ∀ (pats : List (List Char)), (∀ p ∈ pats, p ≠ []) →
    ∀ (s r : List Char), tryPreps pats s = some r → r.length < s.length := by
  intro pats
  induction pats with
  | nil => intro _ s r h; simp [tryPreps] at h
  | cons p ps ih =>
    intro hne s r h
    rw [tryPreps] at h
    split at h
    · exact ih (fun q hq => hne q (List.mem_cons_of_mem p hq)) s r h
    · rename_i r1 hst
      split at h
      · exact ih (fun q hq => hne q (List.mem_cons_of_mem p hq)) s r h
      · rename_i r2 hsp
        split at h
        · exact ih (fun q hq => hne q (List.mem_cons_of_mem p hq)) s r h
        · rename_i r3 htk
          injection h with h
          subst h
          have l1 := stripCI_length p s r1 hst
          have l2 := spaces1_length r1 r2 hsp
          have l3 := matchTok_length r2 r3 htk
          have hp : p ≠ [] := hne p (List.mem_cons_self p ps)
          have : 0 < p.length := List.length_pos.mpr hp
          omega

theorem rule1At_length : ∀ (s r : List Char), rule1At s = some r → r.length < s.length :=
  fun s r h => tryPreps_length prepList (by decide) s r h

theorem gsubDelF_fuel (m : List Char → Option (List Char))
    (hm : ∀ s r, m s = some r → r.length < s.length) :
    ∀ (f : ℕ) (s : List Char) (b : Bool), s.length ≤ f →
      gsubDelF m f b s = gsubDelF m s.length b s := by
  intro f
  induction f using Nat.strong_induction_on with
  | _ f ih =>
    match f with
    | 0 =>
      intro s b hs
      have : s = [] := List.length_eq_zero.mp (Nat.le_zero.mp hs)
      subst this
      rfl
    | f + 1 =>
      intro s b hs
      cases s with
      | nil => rfl
      | cons c cs =>
        have hcs : cs.length ≤ f := by simp at hs; omega
        simp only [List.length_cons]
        cases b with
        | true =>
          rw [gsubDelF, gsubDelF, if_pos rfl, if_pos rfl,
            ih f (Nat.lt_succ_self f) cs (isWordChar c) hcs]
        | false =>
          rw [gsubDelF, gsubDelF, if_neg (by simp), if_neg (by simp)]
          cases hmm : m (c :: cs) with
          | none => simp only [hmm, ih f (Nat.lt_succ_self f) cs (isWordChar c) hcs]
          | some rest =>
            have hlen := hm (c :: cs) rest hmm
            simp only [List.length_cons] at hlen
            simp only [hmm]
            rw [ih f (Nat.lt_succ_self f) rest true (by omega),
              ih cs.length (by omega) rest true (by omega)]

theorem gsubP_cons_word (m : List Char → Option (List Char)) (c : Char) (cs : List Char) :
    gsubP m true (c :: cs) = c :: gsubP m (isWordChar c) cs := by
  rw [gsubP, gsubP]
  simp only [List.length_cons]
  rw [gsubDelF, if_pos rfl]

theorem gsubP_cons_nomatch (m : List Char → Option (List Char)) (c : Char) (cs : List Char)
    (h : m (c :: cs) = none) :
    gsubP m false (c :: cs) = c :: gsubP m (isWordChar c) cs := by
  rw [gsubP, gsubP]
  simp only [List.length_cons]
  rw [gsubDelF, if_neg (by simp)]
  simp only [h]

theorem gsubP_cons_match (m : List Char → Option (List Char))
    (hm : ∀ s r, m s = some r → r.length < s.length) (c : Char) (cs rest : List Char)
    (h : m (c :: cs) = some rest) :
    gsubP m false (c :: cs) = gsubP m true rest := by
  rw [gsubP, gsubP]
  simp only [List.length_cons]
  rw [gsubDelF, if_neg (by simp)]
  simp only [h]
  have hlen := hm _ _ h
  simp only [List.length_cons] at hlen
  exact gsubDelF_fuel m hm cs.length rest true (by omega)

theorem wordBd_rel (Z : List Char) (u1 u2 : List Char) :
    wordBd (Z ++ (' ' :: u1)) = wordBd (Z ++ (' ' :: u2)) := by
  cases Z with
  | nil => rfl
  | cons c cs => rfl

theorem stripCI_rel : ∀ (p : List Char), (∀ c ∈ p, c ≠ ' ') → ∀ (Z u1 u2 : List Char),
    (stripCI p (Z ++ (' ' :: u1)) = none ∧ stripCI p (Z ++ (' ' :: u2)) = none) ∨
    (∃ r, stripCI p (Z ++ (' ' :: u1)) = some (r ++ (' ' :: u1)) ∧
          stripCI p (Z ++ (' ' :: u2)) = some (r ++ (' ' :: u2)) ∧
          r.length + p.length = Z.length) := by
  intro p
  induction p with
  | nil =>
    intro _ Z u1 u2
    right
    exact ⟨Z, rfl, rfl, by simp⟩
  | cons pc ps ih =>
    intro hsp Z u1 u2
    have hpc : pc ≠ ' ' := hsp pc (List.mem_cons_self pc ps)
    cases Z with
    | nil =>
      left
      constructor <;>
        · rw [List.nil_append, stripCI, if_neg (by simpa using fun he => hpc (by rw [← he]))]
    | cons z Z' =>
      rw [List.cons_append, List.cons_append, stripCI, stripCI]
      by_cases hz : z.toLower = pc
      · rw [if_pos hz, if_pos hz]
        rcases ih (fun c hc => hsp c (List.mem_cons_of_mem pc hc)) Z' u1 u2 with ⟨h1, h2⟩ | ⟨r, h1, h2, hl⟩
        · left
          exact ⟨h1, h2⟩
        · right
          refine ⟨r, h1, h2, ?_⟩
          simp only [List.length_cons]
          omega
      · rw [if_neg hz, if_neg hz]
        left
        exact ⟨rfl, rfl⟩

theorem matchAlts_rel : ∀ (pats : List (List Char)),
    (∀ p ∈ pats, p ≠ [] ∧ ∀ c ∈ p, c ≠ ' ') → ∀ (Z u1 u2 : List Char),
    (matchAlts pats (Z ++ (' ' :: u1)) = none ∧ matchAlts pats (Z ++ (' ' :: u2)) = none) ∨
    (∃ r, matchAlts pats (Z ++ (' ' :: u1)) = some (r ++ (' ' :: u1)) ∧
          matchAlts pats (Z ++ (' ' :: u2)) = some (r ++ (' ' :: u2)) ∧
          r.length < Z.length) := by
  intro pats
  induction pats with
  | nil =>
    intro _ Z u1 u2
    left
    exact ⟨rfl, rfl⟩
  | cons p ps ih =>
    intro hp Z u1 u2
    have hrest := fun q hq => hp q (List.mem_cons_of_mem p hq)
    rw [matchAlts, matchAlts]
    rcases stripCI_rel p (hp p (List.mem_cons_self p ps)).2 Z u1 u2 with ⟨h1, h2⟩ | ⟨r, h1, h2, hl⟩
    · rw [h1, h2]
      exact ih hrest Z u1 u2
    · rw [h1, h2]
      have hw := wordBd_rel r u1 u2
      by_cases hwb : wordBd (r ++ (' ' :: u1)) = true
      · simp only [hwb, hw ▸ hwb, if_true]
        right
        refine ⟨r, rfl, rfl, ?_⟩
        have hpne : p ≠ [] := (hp p (List.mem_cons_self p ps)).1
        have : 0 < p.length := List.length_pos.mpr hpne
        omega
      · have hwb2 : ¬ wordBd (r ++ (' ' :: u2)) = true := by rw [← hw]; exact hwb
        simp only [if_neg hwb, if_neg hwb2]
        exact ih hrest Z u1 u2

theorem space_not_digit : (' ').isDigit = false := rfl

theorem space_not_word : isWordChar ' ' = false := rfl


theorem digFour_space : ∀ (c2 : Char) (u : List Char), digFour c2 (' ' :: u) = none := by
  intro c2 u
  cases u with
  | nil => rfl
  | cons c us =>
    rw [digFour, if_neg (by simp [space_not_digit])]

theorem digTok_space : ∀ u : List Char, digTok (' ' :: u) = none := by
  intro u
  cases u with
  | nil => rw [digTok, if_neg (by simp [space_not_digit])]
  | cons c us => rw [digTok, if_pos (by simp [space_not_digit])]

theorem digTok_one : ∀ (z : Char) (u : List Char),
    digTok (z :: ' ' :: u) = if z.isDigit then some (' ' :: u) else none := by
  intro z u
  by_cases hz : z.isDigit = true
  · rw [digTok, if_neg (by simp [hz]), if_neg (by simp [space_not_digit]),
      if_pos (by simp [space_not_word]), if_pos hz]
  · rw [digTok, if_pos (by simpa using hz), if_neg (by simpa using hz)]

theorem digTok_two : ∀ (z1 z2 : Char) (u : List Char),
    digTok (z1 :: z2 :: ' ' :: u) =
      if z1.isDigit then
        (if z2.isDigit then some (' ' :: u)
         else if !(isWordChar z2) then some (z2 :: ' ' :: u) else none)
      else none := by
  intro z1 z2 u
  by_cases h1 : z1.isDigit = true
  · rw [if_pos h1]
    by_cases h2 : z2.isDigit = true
    · rw [digTok, if_neg (by simp [h1]),
        if_pos (by simp [h2, wordBd, space_not_word]), if_pos h2]
    · rw [if_neg h2]
      by_cases h3 : isWordChar z2 = true
      · rw [if_neg (by simp [h3]), digTok, if_neg (by simp [h1]), if_neg (by simp [h2]),
          if_neg (by simp [h3]), digFour_space]
      · rw [if_pos (by simpa using h3), digTok, if_neg (by simp [h1]),
          if_neg (by simp [h2]), if_pos (by simpa using h3)]
  · rw [if_neg h1, digTok, if_pos (by simpa using h1)]

theorem digTok_three : ∀ (z1 z2 z3 : Char) (u : List Char),
    digTok (z1 :: z2 :: z3 :: ' ' :: u) =
      if z1.isDigit then
        (if z2.isDigit && !(isWordChar z3) then some (z3 :: ' ' :: u)
         else if !(isWordChar z2) then some (z2 :: z3 :: ' ' :: u) else none)
      else none := by
  intro z1 z2 z3 u
  by_cases h1 : z1.isDigit = true
  · rw [if_pos h1]
    by_cases hc : (z2.isDigit && !(isWordChar z3)) = true
    · rw [if_pos hc, digTok, if_neg (by simp [h1]),
        if_pos (by simp only [wordBd]; exact hc)]
    · rw [if_neg hc]
      by_cases h3 : isWordChar z2 = true
      · rw [if_neg (by simp [h3]), digTok, if_neg (by simp [h1]),
          if_neg (by simp only [wordBd]; exact hc), if_neg (by simp [h3]),
          digFour, if_neg (by simp [space_not_digit])]
      · rw [if_pos (by simpa using h3), digTok, if_neg (by simp [h1]),
          if_neg (by simp only [wordBd]; exact hc), if_pos (by simpa using h3)]
  · rw [if_neg h1, digTok, if_pos (by simpa using h1)]

theorem digTok_deep : ∀ (z1 z2 z3 z4 : Char) (W : List Char),
    digTok (z1 :: z2 :: z3 :: z4 :: W) =
      if z1.isDigit then
        (if z2.isDigit && !(isWordChar z3) then some (z3 :: z4 :: W)
         else if !(isWordChar z2) then some (z2 :: z3 :: z4 :: W)
         else if z2.isDigit && z3.isDigit && z4.isDigit && wordBd W then some W
         else none)
      else none := by
  intro z1 z2 z3 z4 W
  by_cases h1 : z1.isDigit = true
  · rw [if_pos h1]
    by_cases hc : (z2.isDigit && !(isWordChar z3)) = true
    · rw [if_pos hc, digTok, if_neg (by simp [h1]),
        if_pos (by simp only [wordBd]; exact hc)]
    · rw [if_neg hc]
      by_cases h3 : isWordChar z2 = true
      · rw [if_neg (by simp [h3])]
        by_cases h4 : (z2.isDigit && z3.isDigit && z4.isDigit && wordBd W) = true
        · rw [if_pos h4, digTok, if_neg (by simp [h1]),
            if_neg (by simp only [wordBd]; exact hc), if_neg (by simp [h3]),
            digFour, if_pos h4]
        · rw [if_neg h4, digTok, if_neg (by simp [h1]),
            if_neg (by simp only [wordBd]; exact hc), if_neg (by simp [h3]),
            digFour, if_neg h4]
      · rw [if_pos (by simpa using h3), digTok, if_neg (by simp [h1]),
          if_neg (by simp only [wordBd]; exact hc), if_pos (by simpa using h3)]
  · rw [if_neg h1, digTok, if_pos (by simpa using h1)]

theorem digTok_rel : ∀ (Z u1 u2 : List Char),
    (digTok (Z ++ (' ' :: u1)) = none ∧ digTok (Z ++ (' ' :: u2)) = none) ∨
    (∃ r, digTok (Z ++ (' ' :: u1)) = some (r ++ (' ' :: u1)) ∧
          digTok (Z ++ (' ' :: u2)) = some (r ++ (' ' :: u2)) ∧ r.length < Z.length) := by
  intro Z u1 u2
  match Z with
  | [] =>
    left
    simp [List.nil_append, digTok_space]
  | [z] =>
    simp only [List.cons_append, List.nil_append, digTok_one]
    by_cases hz : z.isDigit = true
    · rw [if_pos hz, if_pos hz]
      right
      exact ⟨[], rfl, rfl, by simp⟩
    · rw [if_neg hz, if_neg hz]
      left
      exact ⟨rfl, rfl⟩
  | [z1, z2] =>
    simp only [List.cons_append, List.nil_append, digTok_two]
    by_cases h1 : z1.isDigit = true
    · rw [if_pos h1, if_pos h1]
      by_cases h2 : z2.isDigit = true
      · rw [if_pos h2, if_pos h2]
        right
        exact ⟨[], rfl, rfl, by simp⟩
      · rw [if_neg h2, if_neg h2]
        by_cases h3 : (!(isWordChar z2)) = true
        · rw [if_pos h3, if_pos h3]
          right
          exact ⟨[z2], rfl, rfl, by simp⟩
        · rw [if_neg h3, if_neg h3]
          left
          exact ⟨rfl, rfl⟩
    · rw [if_neg h1, if_neg h1]
      left
      exact ⟨rfl, rfl⟩
  | [z1, z2, z3] =>
    simp only [List.cons_append, List.nil_append, digTok_three]
    by_cases h1 : z1.isDigit = true
    · rw [if_pos h1, if_pos h1]
      by_cases hc : (z2.isDigit && !(isWordChar z3)) = true
      · rw [if_pos hc, if_pos hc]
        right
        exact ⟨[z3], rfl, rfl, by simp⟩
      · rw [if_neg hc, if_neg hc]
        by_cases h3 : (!(isWordChar z2)) = true
        · rw [if_pos h3, if_pos h3]
          right
          exact ⟨[z2, z3], rfl, rfl, by simp⟩
        · rw [if_neg h3, if_neg h3]
          left
          exact ⟨rfl, rfl⟩
    · rw [if_neg h1, if_neg h1]
      left
      exact ⟨rfl, rfl⟩
  | z1 :: z2 :: z3 :: z4 :: Z' =>
    simp only [List.cons_append, digTok_deep]
    have hw := wordBd_rel Z' u1 u2
    by_cases h1 : z1.isDigit = true
    · rw [if_pos h1, if_pos h1]
      by_cases hc : (z2.isDigit && !(isWordChar z3)) = true
      · rw [if_pos hc, if_pos hc]
        right
        exact ⟨z3 :: z4 :: Z', rfl, rfl, by simp⟩
      · rw [if_neg hc, if_neg hc]
        by_cases h3 : (!(isWordChar z2)) = true
        · rw [if_pos h3, if_pos h3]
          right
          exact ⟨z2 :: z3 :: z4 :: Z', rfl, rfl, by simp⟩
        · rw [if_neg h3, if_neg h3]
          by_cases h4 : (z2.isDigit && z3.isDigit && z4.isDigit && wordBd (Z' ++ (' ' :: u1))) = true
          · rw [if_pos h4, if_pos (by rw [← hw]; exact h4)]
            right
            exact ⟨Z', rfl, rfl, by simp only [List.length_cons]; omega⟩
          · rw [if_neg h4, if_neg (by rw [← hw]; exact h4)]
            left
            exact ⟨rfl, rfl⟩
    · rw [if_neg h1, if_neg h1]
      left
      exact ⟨rfl, rfl⟩

theorem matchTok_rel (Z u1 u2 : List Char) :
    (matchTok (Z ++ (' ' :: u1)) = none ∧ matchTok (Z ++ (' ' :: u2)) = none) ∨
    (∃ r, matchTok (Z ++ (' ' :: u1)) = some (r ++ (' ' :: u1)) ∧
          matchTok (Z ++ (' ' :: u2)) = some (r ++ (' ' :: u2)) ∧ r.length < Z.length) := by
  rw [matchTok, matchTok]
  rcases matchAlts_rel monthList (by decide) Z u1 u2 with ⟨h1, h2⟩ | ⟨r, h1, h2, hl⟩
  · rw [h1, h2]
    exact digTok_rel Z u1 u2
  · rw [h1, h2]
    right
    exact ⟨r, rfl, rfl, hl⟩

theorem dropWhile_space_junction (Zr : List Char) (u : List Char) :
    List.dropWhile isSpaceChar (Zr ++ (' ' :: u)) =
      if (Zr.dropWhile isSpaceChar).isEmpty then List.dropWhile isSpaceChar u
      else Zr.dropWhile isSpaceChar ++ (' ' :: u) := by
  rw [List.dropWhile_append]
  split
  · rw [List.dropWhile_cons_of_pos (by rfl)]
  · rfl

theorem spaces1_rel (Zr u1 u2 : List Char) :
    (spaces1 (Zr ++ (' ' :: u1)) = none ∧ spaces1 (Zr ++ (' ' :: u2)) = none) ∨
    (∃ r, spaces1 (Zr ++ (' ' :: u1)) = some (r ++ (' ' :: u1)) ∧
          spaces1 (Zr ++ (' ' :: u2)) = some (r ++ (' ' :: u2)) ∧ r.length < Zr.length) ∨
    (spaces1 (Zr ++ (' ' :: u1)) = some (u1.dropWhile isSpaceChar) ∧
     spaces1 (Zr ++ (' ' :: u2)) = some (u2.dropWhile isSpaceChar)) := by
  cases Zr with
  | nil =>
    right; right
    constructor <;> (rw [List.nil_append, spaces1, if_pos (by rfl)])
  | cons c Zr' =>
    by_cases hc : isSpaceChar c = true
    · rw [List.cons_append, List.cons_append, spaces1, spaces1, if_pos hc, if_pos hc]
      rw [dropWhile_space_junction, dropWhile_space_junction]
      by_cases he : (Zr'.dropWhile isSpaceChar).isEmpty = true
      · rw [if_pos he, if_pos he]
        right; right
        exact ⟨rfl, rfl⟩
      · rw [if_neg he, if_neg he]
        right; left
        refine ⟨Zr'.dropWhile isSpaceChar, rfl, rfl, ?_⟩
        have := length_dropWhile_le' isSpaceChar Zr'
        simp only [List.length_cons]
        omega
    · rw [List.cons_append, List.cons_append, spaces1, spaces1, if_neg hc, if_neg hc]
      left
      exact ⟨rfl, rfl⟩

theorem tryPreps_rel : ∀ (pats : List (List Char)),
    (∀ p ∈ pats, p ≠ [] ∧ ∀ c ∈ p, c ≠ ' ') → ∀ (Z u1 u2 : List Char),
    matchTok (u1.dropWhile isSpaceChar) = none →
    matchTok (u2.dropWhile isSpaceChar) = none →
    (tryPreps pats (Z ++ (' ' :: u1)) = none ∧ tryPreps pats (Z ++ (' ' :: u2)) = none) ∨
    (∃ r, tryPreps pats (Z ++ (' ' :: u1)) = some (r ++ (' ' :: u1)) ∧
          tryPreps pats (Z ++ (' ' :: u2)) = some (r ++ (' ' :: u2)) ∧ r.length < Z.length) := by
  intro pats
  induction pats with
  | nil =>
    intro _ Z u1 u2 _ _
    left
    exact ⟨rfl, rfl⟩
  | cons p ps ih =>
    intro hp Z u1 u2 hm1 hm2
    have hrest := fun q hq => hp q (List.mem_cons_of_mem p hq)
    rw [tryPreps, tryPreps]
    rcases stripCI_rel p (hp p (List.mem_cons_self p ps)).2 Z u1 u2 with ⟨h1, h2⟩ | ⟨r1, h1, h2, hl1⟩
    · simp only [h1, h2]
      exact ih hrest Z u1 u2 hm1 hm2
    · simp only [h1, h2]
      rcases spaces1_rel r1 u1 u2 with ⟨s1, s2⟩ | ⟨r2, s1, s2, hl2⟩ | ⟨s1, s2⟩
      · simp only [s1, s2]
        exact ih hrest Z u1 u2 hm1 hm2
      · simp only [s1, s2]
        rcases matchTok_rel r2 u1 u2 with ⟨t1, t2⟩ | ⟨r3, t1, t2, hl3⟩
        · simp only [t1, t2]
          exact ih hrest Z u1 u2 hm1 hm2
        · simp only [t1, t2]
          right
          refine ⟨r3, rfl, rfl, ?_⟩
          have hpne : p ≠ [] := (hp p (List.mem_cons_self p ps)).1
          have : 0 < p.length := List.length_pos.mpr hpne
          omega
      · simp only [s1, s2, hm1, hm2]
        exact ih hrest Z u1 u2 hm1 hm2

theorem rule1At_rel (Z u1 u2 : List Char)
    (hm1 : matchTok (u1.dropWhile isSpaceChar) = none)
    (hm2 : matchTok (u2.dropWhile isSpaceChar) = none) :
    (rule1At (Z ++ (' ' :: u1)) = none ∧ rule1At (Z ++ (' ' :: u2)) = none) ∨
    (∃ r, rule1At (Z ++ (' ' :: u1)) = some (r ++ (' ' :: u1)) ∧
          rule1At (Z ++ (' ' :: u2)) = some (r ++ (' ' :: u2)) ∧ r.length < Z.length) :=
  tryPreps_rel prepList (by decide) Z u1 u2 hm1 hm2

theorem gsub_rel (u1 u2 : List Char)
    (hm1 : matchTok (u1.dropWhile isSpaceChar) = none)
    (hm2 : matchTok (u2.dropWhile isSpaceChar) = none)
    (ht : ∀ b, gsubP rule1At b (' ' :: u1) = gsubP rule1At b (' ' :: u2)) :
    ∀ (n : ℕ) (Z : List Char), Z.length ≤ n → ∀ (b : Bool),
      gsubP rule1At b (Z ++ (' ' :: u1)) = gsubP rule1At b (Z ++ (' ' :: u2)) := by
  intro n
  induction n using Nat.strong_induction_on with
  | _ n ih =>
    intro Z hZ b
    cases Z with
    | nil => exact ht b
    | cons c Z' =>
      simp only [List.length_cons] at hZ
      rw [List.cons_append, List.cons_append]
      cases b with
      | true =>
        rw [gsubP_cons_word, gsubP_cons_word]
        have hn : n - 1 < n := by omega
        rw [ih (n - 1) hn Z' (by omega) (isWordChar c)]
      | false =>
        rcases rule1At_rel (c :: Z') u1 u2 hm1 hm2 with ⟨h1, h2⟩ | ⟨r, h1, h2, hl⟩
        · rw [List.cons_append] at h1 h2
          rw [gsubP_cons_nomatch rule1At c (Z' ++ (' ' :: u1)) h1,
              gsubP_cons_nomatch rule1At c (Z' ++ (' ' :: u2)) h2]
          have hn : n - 1 < n := by omega
          rw [ih (n - 1) hn Z' (by omega) (isWordChar c)]
        · rw [List.cons_append] at h1 h2
          rw [gsubP_cons_match rule1At rule1At_length c (Z' ++ (' ' :: u1)) (r ++ (' ' :: u1)) h1,
              gsubP_cons_match rule1At rule1At_length c (Z' ++ (' ' :: u2)) (r ++ (' ' :: u2)) h2]
          simp only [List.length_cons] at hl
          exact ih r.length (by omega) r (le_refl _) true

theorem extractBaseEvent_congr1 (p q : String)
    (h : gsubDel rule1At p.data = gsubDel rule1At q.data) :
    extractBaseEvent p = extractBaseEvent q := by
  simp only [extractBaseEvent]
  rw [h]

theorem gsubDel_tail_congr (X : String) (u1 u2 : List Char)
    (hm1 : matchTok (u1.dropWhile isSpaceChar) = none)
    (hm2 : matchTok (u2.dropWhile isSpaceChar) = none)
    (ht : ∀ b, gsubP rule1At b (' ' :: u1) = gsubP rule1At b (' ' :: u2)) :
    gsubDel rule1At (X.data ++ (' ' :: u1)) = gsubDel rule1At (X.data ++ (' ' :: u2)) :=
  gsub_rel u1 u2 hm1 hm2 ht X.data.length X.data (le_refl _) false

/-- C6: canonical-key normalization is stable over resolution months:
for any common prefix X, the question texts "X by March 2026",
"X by April 2026" and "X by June 2026" all normalize to one and the
same canonical key under `extractBaseEvent`. -/
theorem claim6_normalization_stable (X : String) :
    extractBaseEvent (X ++ " by March 2026") = extractBaseEvent (X ++ " by April 2026") ∧
    extractBaseEvent (X ++ " by April 2026") = extractBaseEvent (X ++ " by June 2026") := by
  have e1 : (X ++ " by March 2026").data = X.data ++ (' ' :: "by March 2026".data) := by
    rw [String.data_append]
  have e2 : (X ++ " by April 2026").data = X.data ++ (' ' :: "by April 2026".data) := by
    rw [String.data_append]
  have e3 : (X ++ " by June 2026").data = X.data ++ (' ' :: "by June 2026".data) := by
    rw [String.data_append]
  constructor
  · apply extractBaseEvent_congr1
    rw [e1, e2]
    exact gsubDel_tail_congr X _ _ (by decide) (by decide) (by decide)
  · apply extractBaseEvent_congr1
    rw [e2, e3]
    exact gsubDel_tail_congr X _ _ (by decide) (by decide) (by decide)
